import Mathlib

/-!
# Shortest-path search: A* on a walkability grid and Dijkstra on a weighted digraph

A shallow embedding of `Search/A-Star/Astar.cpp` and `Search/Dijkstra/Dijkstra.cpp`
together with the properties established about them.

Conventions of the embedding.

* C++ `int` values are `Int`.  In `Astar.cpp` the search is modelled without wrap-around:
  `heuristic` is the mathematical Manhattan distance, which is what the 32-bit code
  computes whenever that distance is at most `INT_MAX` (`heuristicInt32_eq`); the 32-bit
  computation itself is `heuristicInt32`.  In `Dijkstra.cpp` the sum
  `distances[currentVertex] + weight` is reduced to the 32-bit two's complement range.
* `std::priority_queue<Node>` orders nodes by `f` only; which of several nodes of equal
  `f` is on top depends on the heap layout.  The open list is a list and the element that
  is popped is selected by a tie-breaking oracle `tie`; every statement about `aStar` is
  proved for all oracles.
* `Node* parent` is `Option Node` (`none` is `nullptr`).  Parent copies are never freed
  while the search runs, so a parent chain is an immutable value.
* Loops run on fuel; `aStar` supplies `aStarFuel grid` units, which is shown to suffice.
-/

namespace AStar

/-- A grid position `pair<int,int>`: `(first, second) = (row, column)`. -/
abbrev Pos := Int × Int

/-- The grid `vector<vector<int>>`: `0` is walkable, anything else is an obstacle. -/
abbrev Grid := List (List Int)

/-- The class `Node`: coordinates, `g`, `h`, `f` and the `parent` pointer. -/
inductive Node where
  | mk (x y g h f : Int) (parent : Option Node)

namespace Node

def x : Node → Int
  | mk x _ _ _ _ _ => x

def y : Node → Int
  | mk _ y _ _ _ _ => y

def g : Node → Int
  | mk _ _ g _ _ _ => g

def h : Node → Int
  | mk _ _ _ h _ _ => h

def f : Node → Int
  | mk _ _ _ _ f _ => f

def parent : Node → Option Node
  | mk _ _ _ _ _ p => p

/-- The constructor `Node(x, y, g, h, parent)`, which sets `f(g + h)`. -/
def new (x y g h : Int) (parent : Option Node) : Node :=
  mk x y g h (g + h) parent

/-- The position `make_pair(n.x, n.y)`. -/
def pos (n : Node) : Pos := (n.x, n.y)

/-- The comparison `operator<`: `f > other.f`. -/
def lt (a other : Node) : Bool := decide (a.f > other.f)

/-- The positions met when following `parent` from a node until `nullptr`
(the loop `while (curr_ptr)` of the path reconstruction). -/
def chain : Node → List Pos
  | mk x y _ _ _ none => [(x, y)]
  | mk x y _ _ _ (some p) => (x, y) :: chain p

end Node

/-- The C function `abs` as a function on the integers (no wrap-around at `INT_MIN`). -/
def iabs (z : Int) : Int := if z < 0 then -z else z

/-- Manhattan distance `heuristic(current_pos, goal_pos)` as an integer: the value the
source returns whenever that distance is at most `INT_MAX`, in particular for the positions
of a grid whose side lengths sum to at most `INT_MAX`.  The value computed on 32-bit `int`
for arbitrary positions is `heuristicInt32`. -/
def heuristic (current_pos goal_pos : Pos) : Int :=
  iabs (current_pos.1 - goal_pos.1) + iabs (current_pos.2 - goal_pos.2)

/-- The value of an `int` expression whose mathematical value is `z`, reduced to the 32-bit
two's complement range. -/
def toInt32 (z : Int) : Int := (z + 2147483648) % 4294967296 - 2147483648

/-- The function `heuristic` as it is computed on 32-bit `int`: the two subtractions, the
two calls of `abs` and the addition are each reduced to the `int` range. -/
def heuristicInt32 (current_pos goal_pos : Pos) : Int :=
  toInt32 (toInt32 (iabs (toInt32 (current_pos.1 - goal_pos.1))) +
    toInt32 (iabs (toInt32 (current_pos.2 - goal_pos.2))))

/-- Number of rows `grid.size()`. -/
def rows (grid : Grid) : Nat := grid.length

/-- Number of columns `grid[0].size()`.  The source reads `grid[0]` without a test, which
is only defined for a non-empty grid; the empty grid is given 0 columns here. -/
def cols (grid : Grid) : Nat := (grid.headD []).length

/-- The read `grid[x][y]`; `none` when an index lies outside its vector. -/
def cellAt (grid : Grid) (x y : Int) : Option Int :=
  if 0 ≤ x ∧ 0 ≤ y then grid[x.toNat]?.bind (fun row => row[y.toNat]?) else none

/-- The function `isWalkable(grid, x, y)`:
`x >= 0 && x < grid.size() && y >= 0 && y < grid[0].size() && grid[x][y] == 0`.
On a rectangular grid the four tests keep the read `grid[x][y]` inside the grid; a read
outside a row (possible only when the grid is not rectangular) counts as not walkable. -/
def isWalkable (grid : Grid) (x y : Int) : Bool :=
  decide (0 ≤ x) && decide (x < (rows grid : Int)) &&
  decide (0 ≤ y) && decide (y < (cols grid : Int)) &&
  (cellAt grid x y == some 0)

/-- The row offsets `dx[] = {-1, 0, 1, 0}`. -/
def dx : List Int := [-1, 0, 1, 0]

/-- The column offsets `dy[] = {0, 1, 0, -1}`. -/
def dy : List Int := [0, 1, 0, -1]

/-- The local state of `aStar`: `open_list`, `closed_list` and `node_map`.
`node_map` is only ever indexed at positions accepted by `isWalkable`, and is modelled
as a finite map from positions to nullable nodes. -/
structure State where
  open_list : List Node
  closed_list : List Pos
  node_map : Pos → Option Node

/-- Whether `n` may be `open_list.top()`: no element is greater with respect to
`operator<`, that is, no element has a smaller `f`. -/
def isTop (open_list : List Node) (n : Node) : Bool :=
  open_list.all (fun m => !(Node.lt n m))

/-- The index of the element that `top()` returns.  The oracle proposes `tie`; the proposal
is taken when it designates an element that may be on top, otherwise the first such
element is taken. -/
def topIndex (tie : Nat) (open_list : List Node) : Nat :=
  match open_list[tie]? with
  | some n => if isTop open_list n then tie else open_list.findIdx (isTop open_list)
  | none => open_list.findIdx (isTop open_list)

/-- The pair `open_list.top(); open_list.pop()`: the popped node and the remaining list;
`none` when the list is empty. -/
def popTop (tie : Nat) (open_list : List Node) : Option (Node × List Node) :=
  match open_list[topIndex tie open_list]? with
  | some n => some (n, open_list.eraseIdx (topIndex tie open_list))
  | none => none

/-- One pass of the body of `for (int i = 0; i < 4; i++)` for direction `i`. -/
def visitNeighbor (grid : Grid) (goal : Pos) (current : Node) (st : State) (i : Nat) : State :=
  let neighbor_x := current.x + dx.getD i 0
  let neighbor_y := current.y + dy.getD i 0
  let neighbor_pos : Pos := (neighbor_x, neighbor_y)
  if !isWalkable grid neighbor_x neighbor_y || decide (neighbor_pos ∈ st.closed_list) then
    st
  else
    let g := current.g + 1
    let h := heuristic neighbor_pos goal
    let skip : Bool :=
      match st.node_map neighbor_pos with
      | some old => decide (old.g ≤ g)
      | none => false
    if skip then st
    else
      let new_node := Node.new neighbor_x neighbor_y g h (some current)
      { open_list := st.open_list ++ [new_node]
        closed_list := st.closed_list
        node_map := fun p => if p = neighbor_pos then some new_node else st.node_map p }

/-- The part of the loop body after the goal test: `closed_list.insert` followed by the
loop over the four neighbours. -/
def expand (grid : Grid) (goal : Pos) (current : Node) (st : State) : State :=
  let st1 : State :=
    { open_list := st.open_list
      closed_list := st.closed_list.insert current.pos
      node_map := st.node_map }
  (List.range 4).foldl (visitNeighbor grid goal current) st1

/-- The path returned when the goal is popped: the parent chain, reversed. -/
def reconstruct (current : Node) : List Pos := current.chain.reverse

/-- The loop `while (!open_list.empty())`, on fuel.  `some path` is the value returned by
`aStar` (`some []` after the loop exits with the open list exhausted); `none` means the
fuel ran out.  The oracle is asked once per iteration: `tie fuel` is its proposal for the
iteration that starts with `fuel + 1` units left. -/
def aStarLoop (grid : Grid) (goal : Pos) (tie : Nat → Nat) : Nat → State → Option (List Pos)
  | 0, _ => none
  | fuel + 1, st =>
    match popTop (tie fuel) st.open_list with
    | none => some []
    | some (current, rest) =>
      if current.pos = goal then some (reconstruct current)
      else
        aStarLoop grid goal tie fuel
          (expand grid goal current
            { open_list := rest, closed_list := st.closed_list, node_map := st.node_map })

/-- The state before the loop: the start node on the open list, nothing closed,
`node_map` filled with `nullptr`. -/
def initState (start goal : Pos) : State :=
  { open_list := [Node.new start.1 start.2 0 (heuristic start goal) none]
    closed_list := []
    node_map := fun _ => none }

/-- Fuel supplied to the loop: one more than the largest value of the termination
measure (every iteration pops one node and only the first expansion of a position, of which
there are at most `rows * cols + 1`, pushes up to four). -/
def aStarFuel (grid : Grid) : Nat := 4 * (rows grid * cols grid + 1) + 2

/-- The function `aStar(grid, start, goal)`. -/
def aStar (tie : Nat → Nat) (grid : Grid) (start goal : Pos) : Option (List Pos) :=
  aStarLoop grid goal tie (aStarFuel grid) (initState start goal)

/-- The grid of `main`. -/
def exampleGrid : Grid :=
  [[0, 0, 0, 1, 0],
   [0, 1, 0, 1, 0],
   [0, 1, 0, 0, 0],
   [0, 0, 0, 1, 0],
   [1, 0, 0, 0, 0]]

/-! ### Paths, reachability and the loop invariant -/

/-- One cardinal step: one coordinate differs by exactly 1 and the other by 0. -/
def CardinalStep (p q : Pos) : Prop :=
  (iabs (p.1 - q.1) = 1 ∧ p.2 = q.2) ∨ (p.1 = q.1 ∧ iabs (p.2 - q.2) = 1)

instance (p q : Pos) : Decidable (CardinalStep p q) :=
  inferInstanceAs (Decidable
    ((iabs (p.1 - q.1) = 1 ∧ p.2 = q.2) ∨ (p.1 = q.1 ∧ iabs (p.2 - q.2) = 1)))

/-- A position is walkable: in bounds with grid value 0. -/
def Walkable (grid : Grid) (p : Pos) : Prop := isWalkable grid p.1 p.2 = true

instance (grid : Grid) (p : Pos) : Decidable (Walkable grid p) :=
  inferInstanceAs (Decidable (isWalkable grid p.1 p.2 = true))

/-- A position is in bounds. -/
def InBounds (grid : Grid) (p : Pos) : Prop :=
  0 ≤ p.1 ∧ p.1 < (rows grid : Int) ∧ 0 ≤ p.2 ∧ p.2 < (cols grid : Int)

instance (grid : Grid) (p : Pos) : Decidable (InBounds grid p) :=
  inferInstanceAs (Decidable
    (0 ≤ p.1 ∧ p.1 < (rows grid : Int) ∧ 0 ≤ p.2 ∧ p.2 < (cols grid : Int)))

/-- All rows have the length of the first row. -/
def Rectangular (grid : Grid) : Prop := ∀ row ∈ grid, row.length = cols grid

instance (grid : Grid) : Decidable (Rectangular grid) :=
  inferInstanceAs (Decidable (∀ row ∈ grid, row.length = cols grid))

/-- A sequence of positions is a path of the grid: consecutive positions are one cardinal
step apart and every position is walkable. -/
def IsPath (grid : Grid) (path : List Pos) : Prop :=
  List.Chain' CardinalStep path ∧ ∀ p ∈ path, Walkable grid p

/-- A path of the grid that begins at `start` and ends at `goal`. -/
def PathFromTo (grid : Grid) (start goal : Pos) (path : List Pos) : Prop :=
  path.head? = some start ∧ path.getLast? = some goal ∧ IsPath grid path

instance (grid : Grid) (path : List Pos) : Decidable (IsPath grid path) :=
  inferInstanceAs (Decidable
    (List.Chain' CardinalStep path ∧ ∀ p ∈ path, Walkable grid p))

instance (grid : Grid) (start goal : Pos) (path : List Pos) :
    Decidable (PathFromTo grid start goal path) :=
  inferInstanceAs (Decidable
    (path.head? = some start ∧ path.getLast? = some goal ∧ IsPath grid path))

/-- The goal is reachable from the start by 4-connected moves through walkable cells. -/
def Reachable (grid : Grid) (start goal : Pos) : Prop :=
  ∃ path, PathFromTo grid start goal path

/-- The number `k` is the minimum number of steps of a path from `start` to `goal`. -/
def IsMinSteps (grid : Grid) (start goal : Pos) (k : Nat) : Prop :=
  (∃ path, PathFromTo grid start goal path ∧ path.length - 1 = k) ∧
  ∀ path, PathFromTo grid start goal path → k ≤ path.length - 1

/-- A walk of `k` moves from `start` to a position, each move entering a walkable cell
(nothing is asked of `start` itself: the search never tests it). -/
inductive Walk (grid : Grid) (start : Pos) : Pos → Int → Prop
  | refl : Walk grid start start 0
  | step {p q : Pos} {k : Int} :
      Walk grid start p k → CardinalStep p q → Walkable grid q → Walk grid start q (k + 1)

/-- A node whose parent chain is well formed: the chain ends in the start node with
`g = 0`, and every other node of it is walkable, one cardinal step from its parent and has
`g` one more than its parent. -/
def ChainOK (grid : Grid) (start : Pos) : Node → Prop
  | Node.mk x y g _ _ none => (x, y) = start ∧ g = 0
  | Node.mk x y g _ _ (some p) =>
      CardinalStep p.pos (x, y) ∧ Walkable grid (x, y) ∧ g = p.g + 1 ∧ ChainOK grid start p

/-- The neighbour of `current` in direction `i`. -/
def neighborPos (current : Node) (i : Nat) : Pos :=
  (current.x + dx.getD i 0, current.y + dy.getD i 0)

/-- The neighbour `q` of a closed position reached by a walk of `k` moves is settled:
it is closed, or `node_map` records for it a cost of at most `k + 1`. -/
def Settled (st : State) (k : Int) (q : Pos) : Prop :=
  q ∈ st.closed_list ∨ ∃ m, st.node_map q = some m ∧ m.g ≤ k + 1

/-- The invariant of the loop `while (!open_list.empty())`. -/
structure Inv (grid : Grid) (start goal : Pos) (st : State) : Prop where
  nodes_ok : ∀ n ∈ st.open_list, ChainOK grid start n ∧ n.f = n.g + heuristic n.pos goal
  closed_front : ∀ p ∈ st.closed_list, ∀ k, Walk grid start p k →
    ∀ q, CardinalStep p q → Walkable grid q → Settled st k q
  map_ok : ∀ q m, st.node_map q = some m → Walk grid start q m.g ∧
    (q ∉ st.closed_list → ∃ e ∈ st.open_list, e.pos = q ∧ e.g = m.g)
  start_open : start ∉ st.closed_list → ∃ e ∈ st.open_list, e.pos = start ∧ e.g = 0
  goal_open : goal ∉ st.closed_list
  closed_reach : ∀ p ∈ st.closed_list, p = start ∨ Walkable grid p

/-- The invariant of the loop over the four neighbours of `current`, after the directions
in `done` have been handled; `closed0` is the closed list before `current` was inserted. -/
structure Mid (grid : Grid) (start goal : Pos) (current : Node) (closed0 : List Pos)
    (done : List Nat) (st : State) : Prop where
  closed_eq : st.closed_list = closed0.insert current.pos
  nodes_ok : ∀ n ∈ st.open_list, ChainOK grid start n ∧ n.f = n.g + heuristic n.pos goal
  front_old : ∀ p ∈ closed0, ∀ k, Walk grid start p k →
    ∀ q, CardinalStep p q → Walkable grid q → Settled st k q
  cur_front : ∀ i ∈ done, Walkable grid (neighborPos current i) →
    Settled st current.g (neighborPos current i)
  map_ok : ∀ q m, st.node_map q = some m → Walk grid start q m.g ∧
    (q ∉ st.closed_list → ∃ e ∈ st.open_list, e.pos = q ∧ e.g = m.g)
  start_open : start ∉ st.closed_list → ∃ e ∈ st.open_list, e.pos = start ∧ e.g = 0
  goal_open : goal ∉ st.closed_list
  closed_reach : ∀ p ∈ st.closed_list, p = start ∨ Walkable grid p

/-- All in-bounds positions of the grid, row by row. -/
def cells (grid : Grid) : List Pos :=
  ((List.range (rows grid)).product (List.range (cols grid))).map
    (fun rc => ((rc.1 : Int), (rc.2 : Int)))

/-- The positions that can ever be closed: the start and the cells of the grid. -/
def candidates (grid : Grid) (start : Pos) : List Pos := start :: cells grid

/-- The termination measure of the loop: the open list length plus four times the number of
positions not yet closed. -/
def measure (grid : Grid) (start : Pos) (st : State) : Nat :=
  st.open_list.length + 4 * ((candidates grid start).filter (fun p => decide (p ∉ st.closed_list))).length

/-- The function `isWalkable` with every vector access checked, following the left-to-right
evaluation of `&&`: `none` when `grid[0]` or `grid[x][y]` is evaluated with an index
outside its vector, `some b` when the function returns `b` with all accesses in range. -/
def isWalkableChecked (grid : Grid) (x y : Int) : Option Bool :=
  if 0 ≤ x ∧ x < (rows grid : Int) then
    if 0 ≤ y then
      match grid[0]? with
      | none => none
      | some row0 =>
        if y < (row0.length : Int) then
          match cellAt grid x y with
          | none => none
          | some c => some (c == 0)
        else some false
    else some false
  else some false

/-- The state at the head of the loop after `n` further iterations, none of which returned;
`none` when the loop has ended before (open list exhausted or goal popped).  As in
`aStarLoop`, `tie k` is the oracle's proposal for the iteration with `k` iterations to
follow. -/
def aStarStates (grid : Grid) (goal : Pos) (tie : Nat → Nat) : Nat → State → Option State
  | 0, st => some st
  | n + 1, st =>
    match popTop (tie n) st.open_list with
    | none => none
    | some (current, rest) =>
      if current.pos = goal then none
      else
        aStarStates grid goal tie n
          (expand grid goal current
            { open_list := rest, closed_list := st.closed_list, node_map := st.node_map })

/-- A grid in which a position is pushed twice: walls at (1,1) and in column 3. -/
def detourGrid : Grid :=
  [[0, 0, 0, 1, 0],
   [0, 1, 0, 1, 0],
   [0, 0, 0, 1, 0]]

/-- The state reached on `detourGrid` from start (2,0) with goal (0,4) after 8 iterations
when the oracle always proposes index 1. -/
def detourState : State :=
  (aStarStates detourGrid (0, 4) (fun _ => 1) 8 (initState (2, 0) (0, 4))).getD
    (initState (2, 0) (0, 4))

/-- The node popped next in `detourState`, with the rest of the open list. -/
def detourPop : Node × List Node :=
  (popTop 1 detourState.open_list).getD (Node.new 0 0 0 0 none, [])

end AStar

namespace Dijkstra

/-- The constant `INT_MAX` of a 32-bit `int`. -/
def INT_MAX : Int := 2147483647

/-- The value of an `int` expression whose mathematical value is `z`, reduced to the 32-bit
two's complement range. -/
def wrapInt (z : Int) : Int := (z + 2147483648) % 4294967296 - 2147483648

/-- The class `Edge`: `destination` and `weight`. -/
structure Edge where
  destination : Int
  weight : Int
  deriving DecidableEq

/-- The class `Vertex`: the outgoing `edges` and the `visited` flag. -/
structure Vertex where
  edges : List Edge
  visited : Bool
  deriving DecidableEq

/-- The method `Vertex::addEdge`. -/
def Vertex.addEdge (v : Vertex) (destination weight : Int) : Vertex :=
  { v with edges := v.edges ++ [{ destination := destination, weight := weight }] }

/-- The method `Vertex::setVisited`. -/
def Vertex.setVisited (v : Vertex) (state : Bool) : Vertex := { v with visited := state }

/-- The method `Vertex::resetVisited`. -/
def Vertex.resetVisited (v : Vertex) : Vertex := { v with visited := false }

/-- The class `Graph`: `vertices` and `numEdges`. -/
structure Graph where
  vertices : List Vertex
  numEdges : Int
  deriving DecidableEq

/-- The struct `DijkstraResult`. -/
structure DijkstraResult where
  distances : List Int
  previousVertices : List Int
  deriving DecidableEq

/-- The constructor `Graph(numVertices)`. -/
def Graph.new (numVertices : Nat) : Graph :=
  { vertices := List.replicate numVertices { edges := [], visited := false }, numEdges := 0 }

/-- The method `Graph::addEdge`; `source` is taken to be a valid vertex id. -/
def Graph.addEdge (g : Graph) (source destination weight : Int) : Graph :=
  match g.vertices[source.toNat]? with
  | some v =>
    { vertices := g.vertices.set source.toNat (v.addEdge destination weight)
      numEdges := g.numEdges + 1 }
  | none => { g with numEdges := g.numEdges + 1 }

/-- The method `Graph::getSize`. -/
def Graph.getSize (g : Graph) : Nat := g.vertices.length

/-- The method `Graph::resetVisited`. -/
def Graph.resetVisited (g : Graph) : Graph :=
  { g with vertices := g.vertices.map Vertex.resetVisited }

/-- The type `QueueElement = pair<int, pair<int, int>>`:
`(distance, (vertex, previous vertex))`. -/
abbrev QueueElement := Int × (Int × Int)

/-- The order `<=` of `pair<int, pair<int, int>>`: lexicographic. -/
def elemLe (a b : QueueElement) : Bool :=
  decide (a.1 < b.1) ||
    (decide (a.1 = b.1) &&
      (decide (a.2.1 < b.2.1) || (decide (a.2.1 = b.2.1) && decide (a.2.2 ≤ b.2.2))))

/-- The call `pq.emplace(e)` on a min-queue (`greater<QueueElement>`), kept as a list in
ascending order: the front of the list is `pq.top()`. -/
def pqInsert (e : QueueElement) : List QueueElement → List QueueElement
  | [] => [e]
  | a :: rest => if elemLe e a then e :: a :: rest else a :: pqInsert e rest

/-- The read `distances[v]` (also used for `previous[v]`); vertex ids are taken to be valid
indices. -/
def getI (l : List Int) (v : Int) : Int := l.getD v.toNat 0

/-- The write `distances[v] = x`. -/
def setI (l : List Int) (v : Int) (x : Int) : List Int := l.set v.toNat x

/-- The call `vertices[v].isVisited()`. -/
def isVisited (vertices : List Vertex) (v : Int) : Bool :=
  match vertices[v.toNat]? with
  | some x => x.visited
  | none => false

/-- The call `vertices[v].setVisited(true)`. -/
def markVisited (vertices : List Vertex) (v : Int) : List Vertex :=
  match vertices[v.toNat]? with
  | some x => vertices.set v.toNat (x.setVisited true)
  | none => vertices

/-- The call `vertices[v].getEdges()`. -/
def edgesOf (vertices : List Vertex) (v : Int) : List Edge :=
  match vertices[v.toNat]? with
  | some x => x.edges
  | none => []

/-- The local state of `Graph::dijkstra` together with the vertices of the graph. -/
structure State where
  vertices : List Vertex
  distances : List Int
  previous : List Int
  pq : List QueueElement

/-- The loop `do { ... } while (vertices[currentVertex].isVisited())`: pops elements until
one with an unvisited vertex is found; `none` when the queue runs empty first. -/
def popFresh (vertices : List Vertex) : List QueueElement → Option (QueueElement × List QueueElement)
  | [] => none
  | e :: rest => if isVisited vertices e.2.1 then popFresh vertices rest else some (e, rest)

/-- The body of `for (const auto& edge : vertices[currentVertex].getEdges())`, acting on
`distances` and `pq`. -/
def relaxEdge (vertices : List Vertex) (currentVertex : Int)
    (acc : List Int × List QueueElement) (edge : Edge) : List Int × List QueueElement :=
  let neighbor := edge.destination
  let weight := edge.weight
  let sum := wrapInt (getI acc.1 currentVertex + weight)
  if !isVisited vertices neighbor && decide (getI acc.1 neighbor > sum) then
    (setI acc.1 neighbor sum, pqInsert (sum, (neighbor, currentVertex)) acc.2)
  else acc

/-- The part of the body of the `for` loop after an unvisited vertex was popped: mark it
visited, record its predecessor, relax its outgoing edges. -/
def visit (st : State) (current : QueueElement) (rest : List QueueElement) : State :=
  let currentVertex := current.2.1
  let prevVertex := current.2.2
  let vertices := markVisited st.vertices currentVertex
  let previous := setI st.previous currentVertex prevVertex
  let acc := (edgesOf vertices currentVertex).foldl (relaxEdge vertices currentVertex)
    (st.distances, rest)
  { vertices := vertices, distances := acc.1, previous := previous, pq := acc.2 }

/-- The loop `for (int i = 0; i < getSize(); i++)` with `n` iterations left.  The early
`return` on an empty queue ends the loop with the state as it is. -/
def dijkstraLoop : Nat → State → State
  | 0, st => st
  | n + 1, st =>
    match popFresh st.vertices st.pq with
    | none => { st with pq := [] }
    | some (current, rest) => dijkstraLoop n (visit st current rest)

/-- The state at the start of the `for` loop. -/
def initState (g : Graph) (startVertex : Int) : State :=
  { vertices := g.resetVisited.vertices
    distances := setI (List.replicate g.getSize INT_MAX) startVertex 0
    previous := List.replicate g.getSize (-1)
    pq := [(0, (startVertex, startVertex))] }

/-- The method `Graph::dijkstra(startVertex)`: the returned result, and the graph as the
call leaves it (the visited flags are members of the vertices). -/
def Graph.dijkstra (g : Graph) (startVertex : Int) : DijkstraResult × Graph :=
  let st := dijkstraLoop g.getSize (initState g startVertex)
  ({ distances := st.distances, previousVertices := st.previous },
   { g with vertices := st.vertices })

/-- The graph of the documented scenario: 4 vertices, edges 0→1 (1), 1→2 (2), 0→2 (5),
2→3 (1). -/
def exampleGraph : Graph :=
  ((((Graph.new 4).addEdge 0 1 1).addEdge 1 2 2).addEdge 0 2 5).addEdge 2 3 1

/-! ### Directed paths and the loop invariant -/

/-- The adjacency lists of a vector of vertices. -/
def adjacency (vertices : List Vertex) : List (List Edge) := vertices.map Vertex.edges

/-- The adjacency lists of a graph. -/
def Graph.adj (g : Graph) : List (List Edge) := adjacency g.vertices

/-- The id `v` is a valid vertex id of a graph with `n` vertices. -/
def ValidVertex (n : Nat) (v : Int) : Prop := 0 ≤ v ∧ v < (n : Int)

instance (n : Nat) (v : Int) : Decidable (ValidVertex n v) :=
  inferInstanceAs (Decidable (0 ≤ v ∧ v < (n : Int)))

/-- The graph has an edge from `u` to `v` of weight `w`. -/
def HasEdge (E : List (List Edge)) (u v w : Int) : Prop :=
  0 ≤ u ∧ ∃ es, E[u.toNat]? = some es ∧ ({ destination := v, weight := w } : Edge) ∈ es

/-- Every edge destination is a valid vertex id. -/
def ValidEdges (E : List (List Edge)) : Prop :=
  ∀ es ∈ E, ∀ e ∈ es, ValidVertex E.length e.destination

instance (E : List (List Edge)) : Decidable (ValidEdges E) :=
  inferInstanceAs (Decidable (∀ es ∈ E, ∀ e ∈ es, ValidVertex E.length e.destination))

/-- Every edge weight is non-negative. -/
def NonNegWeights (E : List (List Edge)) : Prop :=
  ∀ es ∈ E, ∀ e ∈ es, 0 ≤ e.weight

instance (E : List (List Edge)) : Decidable (NonNegWeights E) :=
  inferInstanceAs (Decidable (∀ es ∈ E, ∀ e ∈ es, 0 ≤ e.weight))

/-- A directed path from `s`: the vertices it visits, the last one first, and its total
weight. -/
inductive DPath (E : List (List Edge)) (s : Int) : List Int → Int → Prop
  | single : DPath E s [s] 0
  | cons {u v w : Int} {vs : List Int} {c : Int} :
      DPath E s (u :: vs) c → HasEdge E u v w → DPath E s (v :: u :: vs) (c + w)

/-- The vertex `v` is reachable from `s`. -/
def Reachable (E : List (List Edge)) (s v : Int) : Prop :=
  ∃ vs c, DPath E s (v :: vs) c

/-- Every path from `s` that repeats no vertex costs less than `INT_MAX`. -/
def BoundedPaths (E : List (List Edge)) (s : Int) : Prop :=
  ∀ vs c, DPath E s vs c → vs.Nodup → c < INT_MAX

/-- The number `d` is the minimum total weight of a directed path from `s` to `v`. -/
def IsMinCost (E : List (List Edge)) (s v d : Int) : Prop :=
  (∃ vs, DPath E s (v :: vs) d) ∧ ∀ vs c, DPath E s (v :: vs) c → d ≤ c

/-- The preconditions under which the distances are exact: non-negative weights and path
costs below `INT_MAX`. -/
def Good (E : List (List Edge)) (s : Int) : Prop := NonNegWeights E ∧ BoundedPaths E s

/-- The sequence `ch` follows `previous` from its first vertex to the source `s` without
repeating a vertex. -/
def IsPrevChain (previous : List Int) (s : Int) (ch : List Int) : Prop :=
  List.Chain' (fun a b => getI previous a = b) ch ∧ ch.getLast? = some s ∧ ch.Nodup

/-- The part of the invariant that relies on `Good`: the queue is sorted by key, recorded
distances are costs of paths through visited vertices, visited vertices carry their minimum
cost, and every unvisited vertex with a finite distance has a queue element. -/
structure Full (E : List (List Edge)) (s cur : Int) (done : List Edge)
    (V : List Vertex) (previous : List Int) (acc : List Int × List QueueElement) : Prop where
  sorted : acc.2.Pairwise (fun a b => a.1 ≤ b.1)
  key_ok : ∀ k v p, (k, (v, p)) ∈ acc.2 → getI acc.1 v ≤ k ∧ k < INT_MAX ∧
    ∃ w, HasEdge E p v w ∧ k = getI acc.1 p + w
  path_cost : ∀ v, ValidVertex E.length v → getI acc.1 v ≠ INT_MAX →
    ∃ vs, DPath E s (v :: vs) (getI acc.1 v) ∧ (v :: vs).Nodup ∧
      ∀ u ∈ vs, isVisited V u = true
  visited_finite : ∀ u, ValidVertex E.length u → isVisited V u = true →
    getI acc.1 u ≠ INT_MAX
  optimal : ∀ u, ValidVertex E.length u → isVisited V u = true →
    ∀ vs c, DPath E s (u :: vs) c → getI acc.1 u ≤ c
  front_old : ∀ u, ValidVertex E.length u → isVisited V u = true → u ≠ cur →
    ∀ v w, HasEdge E u v w → isVisited V v = true ∨ getI acc.1 v ≤ getI acc.1 u + w
  front_cur : ∀ e ∈ done,
    isVisited V e.destination = true ∨ getI acc.1 e.destination ≤ getI acc.1 cur + e.weight
  pending : ∀ v, ValidVertex E.length v → isVisited V v = false →
    getI acc.1 v ≠ INT_MAX → ∃ p, (getI acc.1 v, (v, p)) ∈ acc.2
  pred_ok : ∀ v, ValidVertex E.length v → isVisited V v = true → v ≠ s →
    ∃ w, HasEdge E (getI previous v) v w ∧ getI acc.1 v = getI acc.1 (getI previous v) + w

/-- The invariant of `Graph::dijkstra` while the edges of the visited vertex `cur` are
relaxed; `done` holds the edges handled so far, `acc` is `(distances, pq)`. -/
structure Mid (E : List (List Edge)) (s cur : Int) (done : List Edge)
    (V : List Vertex) (previous : List Int) (acc : List Int × List QueueElement) : Prop where
  adj_eq : adjacency V = E
  dist_len : acc.1.length = E.length
  prev_len : previous.length = E.length
  src_valid : ValidVertex E.length s
  src_visited : isVisited V s = true
  src_dist : getI acc.1 s = 0
  src_prev : getI previous s = s
  cur_valid : ValidVertex E.length cur
  cur_visited : isVisited V cur = true
  queue_ok : ∀ k v p, (k, (v, p)) ∈ acc.2 → ValidVertex E.length v ∧
    ValidVertex E.length p ∧ isVisited V p = true ∧ ∃ w, HasEdge E p v w
  visited_reach : ∀ v, ValidVertex E.length v → isVisited V v = true → Reachable E s v
  dist_reach : ∀ v, ValidVertex E.length v → getI acc.1 v ≠ INT_MAX → Reachable E s v
  prev_none : ∀ v, ValidVertex E.length v → isVisited V v = false → getI previous v = -1
  chain : ∀ v, ValidVertex E.length v → isVisited V v = true →
    ∃ ch, ch.head? = some v ∧ IsPrevChain previous s ch ∧
      ∀ u ∈ ch, ValidVertex E.length u ∧ isVisited V u = true
  full : Good E s → Full E s cur done V previous acc

/-- The invariant of the `for` loop between two iterations: the invariant of the relaxation
with every edge of the vertex visited last handled. -/
def Inv (E : List (List Edge)) (s : Int) (st : State) : Prop :=
  ∃ cur done, Mid E s cur done st.vertices st.previous (st.distances, st.pq) ∧
    ∀ e ∈ edgesOf st.vertices cur, e ∈ done

/-- Following `previous` from `v` visits only valid, visited (finalized) vertices and
reaches the source `s` without repeating a vertex. -/
def FollowsToSource (previous : List Int) (V : List Vertex) (s v : Int) : Prop :=
  ∃ ch, ch.head? = some v ∧ IsPrevChain previous s ch ∧
    ∀ u ∈ ch, ValidVertex V.length u ∧ isVisited V u = true

/-- A graph with two vertices and one edge 0→1 of weight `INT_MAX`. -/
def heavyGraph : Graph := (Graph.new 2).addEdge 0 1 2147483647

/-- The number of vertices whose visited flag is set. -/
def visitedCount (V : List Vertex) : Nat := V.countP (fun x => x.visited)

/-- The state at the head of the `for` loop after `n` further iterations, none of which
returned early; `none` when the queue ran empty before. -/
def dijkstraStates : Nat → State → Option State
  | 0, st => some st
  | n + 1, st =>
    match popFresh st.vertices st.pq with
    | none => none
    | some (current, rest) => dijkstraStates n (visit st current rest)

/-- The sum of the weights of a list of edges. -/
def rowWeight (es : List Edge) : Int := (es.map Edge.weight).sum

/-- The total edge weight of a graph. -/
def totalWeight (E : List (List Edge)) : Int := (E.map rowWeight).sum

/-- A graph in which a path cost exceeds `INT_MAX`: edges 0→1 and 1→2, each of weight
2^30. -/
def overflowGraph : Graph :=
  ((Graph.new 3).addEdge 0 1 1073741824).addEdge 1 2 1073741824

/-- The state of `dijkstra(0)` on `overflowGraph` after two iterations. -/
def overflowState : State :=
  (dijkstraStates 2 (initState overflowGraph 0)).getD (initState overflowGraph 0)

/-- The state of `dijkstra(0)` on `exampleGraph` after one iteration. -/
def exampleState : State :=
  (dijkstraStates 1 (initState exampleGraph 0)).getD (initState exampleGraph 0)

end Dijkstra

/-! ## Properties of `aStar` -/

namespace AStar

@[simp] theorem Node.new_x (x y g h : Int) (p : Option Node) : (Node.new x y g h p).x = x := rfl

@[simp] theorem Node.new_y (x y g h : Int) (p : Option Node) : (Node.new x y g h p).y = y := rfl

@[simp] theorem Node.new_g (x y g h : Int) (p : Option Node) : (Node.new x y g h p).g = g := rfl

@[simp] theorem Node.new_f (x y g h : Int) (p : Option Node) :
    (Node.new x y g h p).f = g + h := rfl

@[simp] theorem Node.new_pos (x y g h : Int) (p : Option Node) :
    (Node.new x y g h p).pos = (x, y) := rfl

theorem iabs_nonneg (z : Int) : 0 ≤ iabs z := by
  unfold iabs; split_ifs <;> omega

theorem heuristic_self (p : Pos) : heuristic p p = 0 := by
  simp [heuristic, iabs]

theorem heuristic_nonneg (p q : Pos) : 0 ≤ heuristic p q := by
  unfold heuristic
  have h1 := iabs_nonneg (p.1 - q.1)
  have h2 := iabs_nonneg (p.2 - q.2)
  omega

theorem heuristic_step (p q goal : Pos) (h : CardinalStep p q) :
    heuristic p goal ≤ heuristic q goal + 1 := by
  unfold CardinalStep iabs at h
  unfold heuristic iabs
  rcases h with ⟨h1, h2⟩ | ⟨h1, h2⟩ <;> split_ifs at * <;> omega

theorem cardinalStep_symm {p q : Pos} (h : CardinalStep p q) : CardinalStep q p := by
  unfold CardinalStep iabs at *
  rcases h with ⟨h1, h2⟩ | ⟨h1, h2⟩
  · left; split_ifs at * <;> omega
  · right; split_ifs at * <;> omega

theorem isTop_min {l : List Node} {n : Node} (h : isTop l n = true) :
    ∀ m ∈ l, n.f ≤ m.f := by
  intro m hm
  unfold isTop at h
  rw [List.all_eq_true] at h
  have := h m hm
  simp [Node.lt] at this
  exact this

theorem isTop_of_min {l : List Node} {n : Node} (h : ∀ m ∈ l, n.f ≤ m.f) :
    isTop l n = true := by
  unfold isTop
  rw [List.all_eq_true]
  intro m hm
  simp [Node.lt]
  exact h m hm

theorem exists_isTop : ∀ {l : List Node}, l ≠ [] → ∃ n ∈ l, isTop l n = true
  | [], h => absurd rfl h
  | [x], _ => ⟨x, by simp, isTop_of_min (by simp)⟩
  | x :: y :: ys, _ => by
    obtain ⟨n, hn, htop⟩ := exists_isTop (l := y :: ys) (by simp)
    have hmin := isTop_min htop
    by_cases hx : x.f ≤ n.f
    · refine ⟨x, by simp, isTop_of_min ?_⟩
      intro m hm
      rcases List.mem_cons.1 hm with rfl | hm
      · exact le_refl _
      · exact le_trans hx (hmin m hm)
    · refine ⟨n, List.mem_cons_of_mem _ hn, isTop_of_min ?_⟩
      intro m hm
      rcases List.mem_cons.1 hm with rfl | hm
      · omega
      · exact hmin m hm

theorem topIndex_spec (tie : Nat) {l : List Node} (h : l ≠ []) :
    ∃ n, l[topIndex tie l]? = some n ∧ isTop l n = true := by
  have hex : ∃ x ∈ l, isTop l x = true := exists_isTop h
  have hlt : l.findIdx (isTop l) < l.length := List.findIdx_lt_length_of_exists hex
  have hfind : ∃ n, l[l.findIdx (isTop l)]? = some n ∧ isTop l n = true :=
    ⟨l[l.findIdx (isTop l)], List.getElem?_eq_getElem hlt, List.findIdx_getElem⟩
  unfold topIndex
  cases hq : l[tie]? with
  | none => simpa using hfind
  | some n =>
    by_cases ht : isTop l n = true
    · simp only [ht, if_true]
      exact ⟨n, hq, ht⟩
    · simp only [ht]
      simpa using hfind

theorem popTop_eq_none {tie : Nat} {l : List Node} (h : popTop tie l = none) : l = [] := by
  by_contra hne
  obtain ⟨n, hn, _⟩ := topIndex_spec tie hne
  simp [popTop, hn] at h

theorem popTop_eq_some {tie : Nat} {l : List Node} {n : Node} {rest : List Node}
    (h : popTop tie l = some (n, rest)) :
    ∃ i, l[i]? = some n ∧ rest = l.eraseIdx i ∧ isTop l n = true := by
  have hne : l ≠ [] := by
    rintro rfl
    simp [popTop] at h
  obtain ⟨m, hm, htop⟩ := topIndex_spec tie hne
  simp only [popTop, hm, Option.some.injEq, Prod.mk.injEq] at h
  obtain ⟨rfl, rfl⟩ := h
  exact ⟨_, hm, rfl, htop⟩

theorem mem_eraseIdx_of_ne {l : List Node} {i : Nat} {n e : Node}
    (hi : l[i]? = some n) (he : e ∈ l) (hne : e.pos ≠ n.pos) : e ∈ l.eraseIdx i := by
  rw [List.mem_eraseIdx_iff_getElem?]
  obtain ⟨j, hj⟩ := List.getElem?_of_mem he
  refine ⟨j, ?_, hj⟩
  rintro rfl
  rw [hi] at hj
  injection hj with hj
  exact hne (by rw [hj])

theorem chainOK_walk {grid : Grid} {start : Pos} :
    ∀ n : Node, ChainOK grid start n → Walk grid start n.pos n.g
  | Node.mk x y g _ _ none, hc => by
    obtain ⟨h1, h2⟩ := hc
    simp only [Node.pos, Node.x, Node.y, Node.g]
    rw [h1, h2]
    exact Walk.refl
  | Node.mk x y g _ _ (some p), hc => by
    obtain ⟨h1, h2, h3, h4⟩ := hc
    have hw := chainOK_walk p h4
    simp only [Node.pos, Node.x, Node.y, Node.g]
    rw [h3]
    exact Walk.step hw h1 h2

theorem chainOK_pos {grid : Grid} {start : Pos} :
    ∀ n : Node, ChainOK grid start n → n.pos = start ∨ Walkable grid n.pos
  | Node.mk _ _ _ _ _ none, hc => Or.inl hc.1
  | Node.mk _ _ _ _ _ (some _), hc => Or.inr hc.2.1

theorem chain_spec {grid : Grid} {start : Pos} :
    ∀ n : Node, ChainOK grid start n →
      n.chain.head? = some n.pos ∧ n.chain.getLast? = some start ∧
      List.Chain' (fun a b => CardinalStep b a) n.chain ∧
      (∀ p ∈ n.chain.dropLast, Walkable grid p) ∧
      ((n.chain.length : Int) = n.g + 1)
  | Node.mk x y g _ _ none, hc => by
    obtain ⟨h1, h2⟩ := hc
    simp [Node.chain, Node.pos, Node.x, Node.y, Node.g, h1, h2]
  | Node.mk x y g _ _ (some p), hc => by
    obtain ⟨h1, h2, h3, h4⟩ := hc
    obtain ⟨i1, i2, i3, i4, i5⟩ := chain_spec p h4
    obtain ⟨c, cs, hcs⟩ : ∃ c cs, p.chain = c :: cs := by
      cases hp : p.chain with
      | nil => simp [hp] at i1
      | cons c cs => exact ⟨c, cs, rfl⟩
    have hc0 : c = p.pos := by simpa [hcs] using i1
    simp only [Node.chain, Node.pos, Node.x, Node.y, Node.g, hcs] at *
    refine ⟨by simp, ?_, ?_, ?_, ?_⟩
    · rw [List.getLast?_cons_cons]; exact i2
    · rw [List.chain'_cons]; exact ⟨by rw [hc0]; exact h1, i3⟩
    · intro q hq
      rw [List.dropLast_cons₂, List.mem_cons] at hq
      rcases hq with rfl | hq
      · exact h2
      · exact i4 q hq
    · simp only [List.length_cons] at *
      push_cast at *
      omega

theorem walk_nonneg {grid : Grid} {start p : Pos} {k : Int} (h : Walk grid start p k) :
    0 ≤ k := by
  induction h with
  | refl => exact le_refl _
  | step _ _ _ ih => omega

theorem walk_head_step {grid : Grid} {s p t : Pos} {k : Int}
    (hs : CardinalStep s p) (hp : Walkable grid p) (h : Walk grid p t k) :
    Walk grid s t (k + 1) := by
  induction h with
  | refl => exact Walk.step Walk.refl hs hp
  | step _ h2 h3 ih => exact Walk.step ih h2 h3

theorem walk_of_list {grid : Grid} {t : Pos} :
    ∀ (path : List Pos) (s : Pos), path.head? = some s → path.getLast? = some t →
      List.Chain' CardinalStep path → (∀ p ∈ path.tail, Walkable grid p) →
      Walk grid s t ((path.length : Int) - 1)
  | [], _, h, _, _, _ => by simp at h
  | [a], s, h1, h2, _, _ => by
    simp at h1 h2
    subst h1 h2
    exact Walk.refl
  | a :: b :: rest, s, h1, h2, h3, h4 => by
    simp at h1
    subst h1
    rw [List.getLast?_cons_cons] at h2
    rw [List.chain'_cons] at h3
    have hb : Walkable grid b := h4 b (by simp)
    have ih := walk_of_list (b :: rest) b rfl h2 h3.2
      (fun p hp => h4 p (by simp at hp ⊢; exact Or.inr hp))
    have := walk_head_step h3.1 hb ih
    simp only [List.length_cons] at *
    push_cast at *
    have e : ((rest.length : Int) + 1 + 1 - 1) = ((rest.length : Int) + 1 - 1 + 1) := by ring
    rw [e]
    exact this

theorem walk_of_path {grid : Grid} {s t : Pos} {path : List Pos}
    (h : PathFromTo grid s t path) : Walk grid s t ((path.length : Int) - 1) :=
  walk_of_list path s h.1 h.2.1 h.2.2.1
    (fun p hp => h.2.2.2 p (List.mem_of_mem_tail hp))

theorem front_entry {grid : Grid} {start goal : Pos} {st : State}
    (hinv : Inv grid start goal st) {p : Pos} {k : Int} (hw : Walk grid start p k) :
    p ∉ st.closed_list → ∃ e ∈ st.open_list, e.f ≤ k + heuristic p goal := by
  induction hw with
  | refl =>
    intro hp
    obtain ⟨e, he, hpos, hg⟩ := hinv.start_open hp
    refine ⟨e, he, ?_⟩
    rw [(hinv.nodes_ok e he).2, hpos, hg]
  | @step p q k hw hs hq ih =>
    intro hqc
    by_cases hpc : p ∈ st.closed_list
    · rcases hinv.closed_front p hpc k hw q hs hq with hcl | ⟨m, hm, hle⟩
      · exact absurd hcl hqc
      · obtain ⟨e, he, hpos, hg⟩ := (hinv.map_ok q m hm).2 hqc
        refine ⟨e, he, ?_⟩
        rw [(hinv.nodes_ok e he).2, hpos, hg]
        omega
    · obtain ⟨e, he, hle⟩ := ih hpc
      refine ⟨e, he, ?_⟩
      have := heuristic_step p q goal hs
      omega

theorem popped_optimal {grid : Grid} {start goal : Pos} {st : State}
    (hinv : Inv grid start goal st) {cur : Node} (hmem : cur ∈ st.open_list)
    (htop : isTop st.open_list cur = true) (hnc : cur.pos ∉ st.closed_list) :
    ∀ k, Walk grid start cur.pos k → cur.g ≤ k := by
  intro k hw
  obtain ⟨e, he, hle⟩ := front_entry hinv hw hnc
  have h1 := isTop_min htop e he
  have h2 := (hinv.nodes_ok cur hmem).2
  omega

theorem settled_mono {st : State} {k k' : Int} {q : Pos} (hk : k ≤ k')
    (h : Settled st k q) : Settled st k' q := by
  rcases h with h | ⟨m, hm, hle⟩
  · exact Or.inl h
  · exact Or.inr ⟨m, hm, by omega⟩

theorem neighborPos_step (cur : Node) {i : Nat} (hi : i < 4) :
    CardinalStep cur.pos (neighborPos cur i) := by
  have : i = 0 ∨ i = 1 ∨ i = 2 ∨ i = 3 := by omega
  rcases this with rfl | rfl | rfl | rfl <;>
    simp [CardinalStep, neighborPos, Node.pos, dx, dy, iabs]

theorem neighborPos_ge (cur : Node) {i : Nat} (hi : 4 ≤ i) :
    neighborPos cur i = cur.pos := by
  have h1 : dx.getD i 0 = 0 := List.getD_eq_default _ _ (by simpa [dx] using hi)
  have h2 : dy.getD i 0 = 0 := List.getD_eq_default _ _ (by simpa [dy] using hi)
  simp only [neighborPos, Node.pos, h1, h2, add_zero]

theorem step_is_neighbor (cur : Node) {q : Pos} (h : CardinalStep cur.pos q) :
    ∃ i ∈ [3, 2, 1, 0], q = neighborPos cur i := by
  obtain ⟨qx, qy⟩ := q
  unfold CardinalStep iabs at h
  simp only [Node.pos] at h
  have : (qx = cur.x - 1 ∧ qy = cur.y) ∨ (qx = cur.x ∧ qy = cur.y + 1) ∨
      (qx = cur.x + 1 ∧ qy = cur.y) ∨ (qx = cur.x ∧ qy = cur.y - 1) := by
    rcases h with ⟨h1, h2⟩ | ⟨h1, h2⟩ <;> split_ifs at * <;> omega
  rcases this with ⟨h1, h2⟩ | ⟨h1, h2⟩ | ⟨h1, h2⟩ | ⟨h1, h2⟩
  · exact ⟨0, by simp, by simp [neighborPos, dx, dy, h1, h2]; ring⟩
  · exact ⟨1, by simp, by simp [neighborPos, dx, dy, h1, h2]⟩
  · exact ⟨2, by simp, by simp [neighborPos, dx, dy, h1, h2]⟩
  · exact ⟨3, by simp, by simp [neighborPos, dx, dy, h1, h2]; ring⟩

/-- The two outcomes of one pass over a neighbour: the state is left as it is (the
neighbour is not walkable, is closed, or is recorded with a cost that is not worse), or a
new node is recorded and pushed. -/
theorem visitNeighbor_cases (grid : Grid) (goal : Pos) (cur : Node) (st : State) (i : Nat) :
    (visitNeighbor grid goal cur st i = st ∧
      (¬ Walkable grid (neighborPos cur i) ∨ neighborPos cur i ∈ st.closed_list ∨
        ∃ m, st.node_map (neighborPos cur i) = some m ∧ m.g ≤ cur.g + 1)) ∨
    (Walkable grid (neighborPos cur i) ∧ neighborPos cur i ∉ st.closed_list ∧
      (∀ m, st.node_map (neighborPos cur i) = some m → cur.g + 1 < m.g) ∧
      visitNeighbor grid goal cur st i =
        { open_list := st.open_list ++
            [Node.new (neighborPos cur i).1 (neighborPos cur i).2 (cur.g + 1)
              (heuristic (neighborPos cur i) goal) (some cur)]
          closed_list := st.closed_list
          node_map := fun p =>
            if p = neighborPos cur i then
              some (Node.new (neighborPos cur i).1 (neighborPos cur i).2 (cur.g + 1)
                (heuristic (neighborPos cur i) goal) (some cur))
            else st.node_map p }) := by
  by_cases hw : isWalkable grid (cur.x + dx.getD i 0) (cur.y + dy.getD i 0) = true
  · by_cases hc : ((cur.x + dx.getD i 0, cur.y + dy.getD i 0) : Pos) ∈ st.closed_list
    · left
      refine ⟨?_, Or.inr (Or.inl hc)⟩
      simp only [visitNeighbor, hw, hc, decide_True, Bool.not_true, Bool.or_true, if_true,
        Bool.false_or]
    · cases hm : st.node_map (cur.x + dx.getD i 0, cur.y + dy.getD i 0) with
      | none =>
        right
        refine ⟨hw, hc, ?_, ?_⟩
        · intro m hm'
          simp only [neighborPos] at hm'
          rw [hm] at hm'
          cases hm'
        · simp only [visitNeighbor, hw, hc, hm, decide_False, Bool.not_true, Bool.or_false,
            neighborPos]
          rfl
      | some old =>
        by_cases hg : old.g ≤ cur.g + 1
        · left
          refine ⟨?_, Or.inr (Or.inr ⟨old, hm, hg⟩)⟩
          simp only [visitNeighbor, hw, hc, hm, hg, decide_True, decide_False, Bool.not_true,
            Bool.or_false, if_true]
          rfl
        · right
          refine ⟨hw, hc, ?_, ?_⟩
          · intro m hm'
            simp only [neighborPos] at hm'
            rw [hm] at hm'
            injection hm' with hm'
            subst hm'
            omega
          · simp only [visitNeighbor, hw, hc, hm, hg, decide_False, Bool.not_true,
              Bool.or_false, neighborPos]
            rfl
  · left
    refine ⟨?_, Or.inl hw⟩
    simp only [visitNeighbor, hw, Bool.not_false, Bool.true_or, if_true]

theorem mid_visit {grid : Grid} {start goal : Pos} {cur : Node} {closed0 : List Pos}
    {done : List Nat} {st : State} (hcur : ChainOK grid start cur)
    (hmid : Mid grid start goal cur closed0 done st) (i : Nat) :
    Mid grid start goal cur closed0 (i :: done) (visitNeighbor grid goal cur st i) := by
  have hcc : cur.pos ∈ st.closed_list := by
    rw [hmid.closed_eq]; exact List.mem_insert_self _ _
  rcases visitNeighbor_cases grid goal cur st i with ⟨heq, hwhy⟩ | ⟨hw, hnc, hbetter, heq⟩
  · rw [heq]
    refine ⟨hmid.closed_eq, hmid.nodes_ok, hmid.front_old, ?_, hmid.map_ok, hmid.start_open,
      hmid.goal_open, hmid.closed_reach⟩
    intro j hj hwj
    rcases List.mem_cons.1 hj with rfl | hj
    · rcases hwhy with h | h | h
      · exact absurd hwj h
      · exact Or.inl h
      · exact Or.inr h
    · exact hmid.cur_front j hj hwj
  · have hi : i < 4 := by
      by_contra hge
      rw [neighborPos_ge cur (by omega)] at hnc
      exact hnc hcc
    have hstep : CardinalStep cur.pos (neighborPos cur i) := neighborPos_step cur hi
    have hwalk : Walk grid start (neighborPos cur i) (cur.g + 1) :=
      Walk.step (chainOK_walk cur hcur) hstep hw
    have hsettled : ∀ k q, Settled st k q → Settled (visitNeighbor grid goal cur st i) k q := by
      intro k q hs
      rw [heq]
      rcases hs with hs | ⟨m, hm, hle⟩
      · exact Or.inl hs
      · right
        by_cases hq : q = neighborPos cur i
        · subst hq
          refine ⟨_, if_pos rfl, ?_⟩
          have := hbetter m hm
          simp only [Node.new_g]
          omega
        · exact ⟨m, by simp only [if_neg hq]; exact hm, hle⟩
    have hopen : ∀ e ∈ st.open_list, e ∈ (visitNeighbor grid goal cur st i).open_list := by
      intro e he
      rw [heq]
      exact List.mem_append_left _ he
    have hclosed : (visitNeighbor grid goal cur st i).closed_list = st.closed_list := by
      rw [heq]
    refine ⟨hclosed.trans hmid.closed_eq, ?_, ?_, ?_, ?_, ?_, hclosed ▸ hmid.goal_open,
      hclosed ▸ hmid.closed_reach⟩
    · intro n hn
      rw [heq] at hn
      rcases List.mem_append.1 hn with hn | hn
      · exact hmid.nodes_ok n hn
      · rw [List.mem_singleton] at hn
        subst hn
        refine ⟨⟨hstep, hw, rfl, hcur⟩, ?_⟩
        simp
    · intro p hp k hk q hs hq
      exact hsettled k q (hmid.front_old p hp k hk q hs hq)
    · intro j hj hwj
      rcases List.mem_cons.1 hj with rfl | hj
      · rw [heq]
        exact Or.inr ⟨_, if_pos rfl, by simp⟩
      · exact hsettled _ _ (hmid.cur_front j hj hwj)
    · intro q m hm
      rw [hclosed]
      rw [heq] at hm
      by_cases hq : q = neighborPos cur i
      · subst hq
        simp only [if_pos] at hm
        injection hm with hm
        subst hm
        refine ⟨by simpa using hwalk, fun _ => ⟨_, ?_, ?_, rfl⟩⟩
        · rw [heq]
          exact List.mem_append_right _ (List.mem_singleton.2 rfl)
        · simp
      · simp only [if_neg hq] at hm
        obtain ⟨h1, h2⟩ := hmid.map_ok q m hm
        refine ⟨h1, fun hqc => ?_⟩
        obtain ⟨e, he, h3, h4⟩ := h2 hqc
        exact ⟨e, hopen e he, h3, h4⟩
    · intro hs
      rw [hclosed] at hs
      obtain ⟨e, he, h3, h4⟩ := hmid.start_open hs
      exact ⟨e, hopen e he, h3, h4⟩

theorem mid_fold {grid : Grid} {start goal : Pos} {cur : Node} {closed0 : List Pos}
    (hcur : ChainOK grid start cur) :
    ∀ (is done : List Nat) (st : State), Mid grid start goal cur closed0 done st →
      Mid grid start goal cur closed0 (is.reverse ++ done)
        (is.foldl (visitNeighbor grid goal cur) st)
  | [], done, st, h => by simpa using h
  | i :: is, done, st, h => by
    have := mid_fold hcur is (i :: done) _ (mid_visit hcur h i)
    simpa using this

theorem mid_of_inv {grid : Grid} {start goal : Pos} {st : State}
    (hinv : Inv grid start goal st) {cur : Node} {i : Nat}
    (hi : st.open_list[i]? = some cur) (hgoal : cur.pos ≠ goal) :
    Mid grid start goal cur st.closed_list []
      { open_list := st.open_list.eraseIdx i
        closed_list := st.closed_list.insert cur.pos
        node_map := st.node_map } := by
  have hmem : cur ∈ st.open_list := List.getElem?_mem hi
  refine ⟨rfl, ?_, ?_, ?_, ?_, ?_, ?_, ?_⟩
  · intro n hn
    exact hinv.nodes_ok n (List.mem_of_mem_eraseIdx hn)
  · intro p hp k hk q hs hq
    rcases hinv.closed_front p hp k hk q hs hq with h | h
    · exact Or.inl (List.mem_insert_of_mem h)
    · exact Or.inr h
  · intro j hj
    simp at hj
  · intro q m hm
    obtain ⟨h1, h2⟩ := hinv.map_ok q m hm
    refine ⟨h1, fun hqc => ?_⟩
    simp only [List.mem_insert_iff, not_or] at hqc
    obtain ⟨e, he, h3, h4⟩ := h2 hqc.2
    exact ⟨e, mem_eraseIdx_of_ne hi he (by rw [h3]; exact hqc.1), h3, h4⟩
  · intro hs
    simp only [List.mem_insert_iff, not_or] at hs
    obtain ⟨e, he, h3, h4⟩ := hinv.start_open hs.2
    exact ⟨e, mem_eraseIdx_of_ne hi he (by rw [h3]; exact hs.1), h3, h4⟩
  · simp only [List.mem_insert_iff, not_or]
    exact ⟨fun h => hgoal h.symm, hinv.goal_open⟩
  · intro p hp
    simp only [List.mem_insert_iff] at hp
    rcases hp with rfl | hp
    · exact chainOK_pos cur (hinv.nodes_ok cur hmem).1
    · exact hinv.closed_reach p hp

theorem inv_of_mid {grid : Grid} {start goal : Pos} {cur : Node} {closed0 : List Pos}
    {st : State} (hmid : Mid grid start goal cur closed0 [3, 2, 1, 0] st)
    (hopt : cur.pos ∉ closed0 → ∀ k, Walk grid start cur.pos k → cur.g ≤ k) :
    Inv grid start goal st := by
  refine ⟨hmid.nodes_ok, ?_, hmid.map_ok, hmid.start_open, hmid.goal_open, hmid.closed_reach⟩
  intro p hp k hk q hs hq
  by_cases hold : p ∈ closed0
  · exact hmid.front_old p hold k hk q hs hq
  · rw [hmid.closed_eq, List.mem_insert_iff] at hp
    rcases hp with rfl | hp
    · obtain ⟨i, hi, rfl⟩ := step_is_neighbor cur hs
      exact settled_mono (hopt hold k hk) (hmid.cur_front i hi hq)
    · exact absurd hp hold

theorem range_four : List.range 4 = [0, 1, 2, 3] := by decide

theorem inv_expand {grid : Grid} {start goal : Pos} {st : State}
    (hinv : Inv grid start goal st) {cur : Node} {i : Nat}
    (hi : st.open_list[i]? = some cur) (htop : isTop st.open_list cur = true)
    (hgoal : cur.pos ≠ goal) :
    Inv grid start goal
      (expand grid goal cur
        { open_list := st.open_list.eraseIdx i
          closed_list := st.closed_list
          node_map := st.node_map }) := by
  have hmem : cur ∈ st.open_list := List.getElem?_mem hi
  have hcur := (hinv.nodes_ok cur hmem).1
  have hmid := mid_fold hcur [0, 1, 2, 3] [] _ (mid_of_inv hinv hi hgoal)
  unfold expand
  rw [range_four]
  exact inv_of_mid hmid (popped_optimal hinv hmem htop)

theorem visit_length (grid : Grid) (goal : Pos) (cur : Node) (st : State) (i : Nat) :
    (visitNeighbor grid goal cur st i).open_list.length ≤ st.open_list.length + 1 ∧
    (visitNeighbor grid goal cur st i).closed_list = st.closed_list := by
  rcases visitNeighbor_cases grid goal cur st i with ⟨heq, _⟩ | ⟨_, _, _, heq⟩
  · rw [heq]; exact ⟨Nat.le_succ _, rfl⟩
  · rw [heq]; simp

theorem fold_length (grid : Grid) (goal : Pos) (cur : Node) :
    ∀ (is : List Nat) (st : State),
      (is.foldl (visitNeighbor grid goal cur) st).open_list.length
        ≤ st.open_list.length + is.length ∧
      (is.foldl (visitNeighbor grid goal cur) st).closed_list = st.closed_list
  | [], st => by simp
  | i :: is, st => by
    obtain ⟨h1, h2⟩ := fold_length grid goal cur is (visitNeighbor grid goal cur st i)
    obtain ⟨h3, h4⟩ := visit_length grid goal cur st i
    simp only [List.foldl_cons, List.length_cons]
    exact ⟨by omega, h2.trans h4⟩

theorem stale_visit {grid : Grid} {start goal : Pos} {cur : Node} {closed0 : List Pos}
    {done : List Nat} {st : State} (hcur : ChainOK grid start cur)
    (hmid : Mid grid start goal cur closed0 done st) (hold : cur.pos ∈ closed0) (i : Nat) :
    visitNeighbor grid goal cur st i = st := by
  rcases visitNeighbor_cases grid goal cur st i with ⟨heq, _⟩ | ⟨hw, hnc, hbetter, _⟩
  · exact heq
  · exfalso
    have hcc : cur.pos ∈ st.closed_list := by
      rw [hmid.closed_eq]; exact List.mem_insert_self _ _
    have hi : i < 4 := by
      by_contra hge
      rw [neighborPos_ge cur (by omega)] at hnc
      exact hnc hcc
    rcases hmid.front_old cur.pos hold cur.g (chainOK_walk cur hcur) _
      (neighborPos_step cur hi) hw with h | ⟨m, hm, hle⟩
    · exact hnc h
    · have := hbetter m hm
      omega

theorem stale_fold {grid : Grid} {start goal : Pos} {cur : Node} {closed0 : List Pos}
    {done : List Nat} {st : State} (hcur : ChainOK grid start cur)
    (hmid : Mid grid start goal cur closed0 done st) (hold : cur.pos ∈ closed0) :
    ∀ is : List Nat, is.foldl (visitNeighbor grid goal cur) st = st
  | [] => rfl
  | i :: is => by
    rw [List.foldl_cons, stale_visit hcur hmid hold i]
    exact stale_fold hcur hmid hold is

theorem filter_closed_le (c : List Pos) (p : Pos) :
    ∀ U : List Pos, (U.filter (fun u => decide (u ∉ p :: c))).length
      ≤ (U.filter (fun u => decide (u ∉ c))).length
  | [] => by simp
  | u :: us => by
    have ih := filter_closed_le c p us
    by_cases h1 : u ∈ c
    · have h2 : u ∈ p :: c := List.mem_cons_of_mem _ h1
      simp only [List.filter_cons, h1, h2, not_true_eq_false, decide_False]
      simpa using ih
    · by_cases h2 : u ∈ p :: c
      · simp only [List.filter_cons, h1, h2, not_true_eq_false, not_false_eq_true,
          decide_False, decide_True, if_true, List.length_cons]
        simp only [Bool.false_eq_true, if_false]
        omega
      · simp only [List.filter_cons, h1, h2, not_false_eq_true, decide_True, if_true,
          List.length_cons]
        omega

theorem filter_closed_lt (c : List Pos) (p : Pos) (hp : p ∉ c) :
    ∀ U : List Pos, p ∈ U → (U.filter (fun u => decide (u ∉ p :: c))).length
      < (U.filter (fun u => decide (u ∉ c))).length
  | [], h => by simp at h
  | u :: us, h => by
    by_cases hu : u = p
    · subst hu
      have := filter_closed_le c u us
      have h2 : u ∈ u :: c := List.mem_cons_self _ _
      simp only [List.filter_cons, hp, h2, not_true_eq_false, not_false_eq_true,
        decide_False, decide_True, if_true, List.length_cons]
      simp only [Bool.false_eq_true, if_false]
      omega
    · have hmem : p ∈ us := by
        rcases List.mem_cons.1 h with h | h
        · exact absurd h.symm hu
        · exact h
      have ih := filter_closed_lt c p hp us hmem
      by_cases h1 : u ∈ c
      · have h2 : u ∈ p :: c := List.mem_cons_of_mem _ h1
        simp only [List.filter_cons, h1, h2, not_true_eq_false, decide_False]
        simpa using ih
      · have h2 : u ∉ p :: c := by
          simp only [List.mem_cons, not_or]
          exact ⟨hu, h1⟩
        simp only [List.filter_cons, h1, h2, not_false_eq_true, decide_True, if_true,
          List.length_cons]
        omega

theorem walkable_bounds {grid : Grid} {p : Pos} (h : Walkable grid p) : InBounds grid p := by
  unfold Walkable isWalkable at h
  simp only [Bool.and_eq_true, decide_eq_true_eq] at h
  exact ⟨h.1.1.1.1, h.1.1.1.2, h.1.1.2, h.1.2⟩

theorem mem_cells {grid : Grid} {p : Pos} (h : InBounds grid p) : p ∈ cells grid := by
  obtain ⟨h1, h2, h3, h4⟩ := h
  unfold cells
  rw [List.mem_map]
  refine ⟨(p.1.toNat, p.2.toNat), ?_, ?_⟩
  · rw [List.pair_mem_product, List.mem_range, List.mem_range]
    omega
  · ext
    · simp only [Int.toNat_of_nonneg h1]
    · simp only [Int.toNat_of_nonneg h3]

theorem length_cells (grid : Grid) : (cells grid).length = rows grid * cols grid := by
  unfold cells
  rw [List.length_map]
  have h := List.length_product (List.range (rows grid)) (List.range (cols grid))
  rw [List.length_range, List.length_range] at h
  exact h

theorem measure_expand {grid : Grid} {start goal : Pos} {st : State}
    (hinv : Inv grid start goal st) {cur : Node} {i : Nat}
    (hi : st.open_list[i]? = some cur) (hgoal : cur.pos ≠ goal) :
    measure grid start
      (expand grid goal cur
        { open_list := st.open_list.eraseIdx i
          closed_list := st.closed_list
          node_map := st.node_map }) < measure grid start st := by
  have hmem : cur ∈ st.open_list := List.getElem?_mem hi
  have hcur := (hinv.nodes_ok cur hmem).1
  have hmid := mid_of_inv hinv hi hgoal
  have hlt : i < st.open_list.length := by
    by_contra hge
    rw [List.getElem?_eq_none (by omega)] at hi
    cases hi
  have hlen : (st.open_list.eraseIdx i).length = st.open_list.length - 1 :=
    List.length_eraseIdx_of_lt hlt
  unfold expand
  by_cases hold : cur.pos ∈ st.closed_list
  · rw [stale_fold hcur hmid hold]
    simp only [measure, List.insert_of_mem hold, hlen]
    omega
  · rw [List.insert_of_not_mem hold]
    obtain ⟨h1, h2⟩ := fold_length grid goal cur (List.range 4)
      { open_list := st.open_list.eraseIdx i
        closed_list := cur.pos :: st.closed_list
        node_map := st.node_map }
    have hcand : cur.pos ∈ candidates grid start := by
      rcases chainOK_pos cur hcur with h | h
      · rw [h]; exact List.mem_cons_self _ _
      · exact List.mem_cons_of_mem _ (mem_cells (walkable_bounds h))
    have h3 := filter_closed_lt st.closed_list cur.pos hold (candidates grid start) hcand
    simp only [hlen, List.length_range] at h1
    simp only [measure, h2]
    omega

theorem inv_init (grid : Grid) (start goal : Pos) :
    Inv grid start goal (initState start goal) := by
  refine ⟨?_, ?_, ?_, ?_, ?_, ?_⟩
  · intro n hn
    simp only [initState, List.mem_singleton] at hn
    subst hn
    exact ⟨⟨rfl, rfl⟩, by simp⟩
  · intro p hp
    simp [initState] at hp
  · intro q m hm
    simp [initState] at hm
  · intro _
    exact ⟨_, List.mem_singleton.2 rfl, rfl, rfl⟩
  · simp [initState]
  · intro p hp
    simp [initState] at hp

theorem measure_init (grid : Grid) (start goal : Pos) :
    measure grid start (initState start goal) < aStarFuel grid := by
  have h : ((candidates grid start).filter
      (fun p => decide (p ∉ (initState start goal).closed_list))).length
      ≤ (candidates grid start).length := List.length_filter_le _ _
  simp only [candidates, List.length_cons, length_cells] at h
  simp only [measure, aStarFuel, List.length_singleton, candidates]
  simp only [initState] at h ⊢
  simp only [List.length_singleton]
  omega

theorem reconstruct_spec {grid : Grid} {start : Pos} {n : Node} (h : ChainOK grid start n) :
    (reconstruct n).head? = some start ∧ (reconstruct n).getLast? = some n.pos ∧
    List.Chain' CardinalStep (reconstruct n) ∧
    (∀ p ∈ (reconstruct n).tail, Walkable grid p) ∧
    (((reconstruct n).length : Int) = n.g + 1) := by
  obtain ⟨h1, h2, h3, h4, h5⟩ := chain_spec n h
  unfold reconstruct
  refine ⟨by rw [List.head?_reverse]; exact h2, by rw [List.getLast?_reverse]; exact h1,
    ?_, ?_, by rw [List.length_reverse]; exact h5⟩
  · rw [List.chain'_reverse]
    exact h3
  · intro p hp
    rw [List.tail_reverse, List.mem_reverse] at hp
    exact h4 p hp

theorem reconstruct_ne_nil {grid : Grid} {start : Pos} {n : Node} (h : ChainOK grid start n) :
    reconstruct n ≠ [] := by
  intro he
  have := (reconstruct_spec h).1
  rw [he] at this
  simp at this

theorem walkable_of_tail {grid : Grid} {start : Pos} {path : List Pos}
    (hhead : path.head? = some start) (htail : ∀ p ∈ path.tail, Walkable grid p)
    (hs : Walkable grid start) : ∀ p ∈ path, Walkable grid p := by
  cases path with
  | nil => intro p hp; simp at hp
  | cons a rest =>
    simp only [List.head?_cons, Option.some.injEq] at hhead
    subst hhead
    intro p hp
    rcases List.mem_cons.1 hp with rfl | hp
    · exact hs
    · exact htail p hp

theorem reconstruct_path {grid : Grid} {start : Pos} {n : Node} (h : ChainOK grid start n)
    (hs : Walkable grid start) : PathFromTo grid start n.pos (reconstruct n) := by
  obtain ⟨h1, h2, h3, h4, _⟩ := reconstruct_spec h
  exact ⟨h1, h2, h3, walkable_of_tail h1 h4 hs⟩

theorem heuristic_comm (p q : Pos) : heuristic p q = heuristic q p := by
  unfold heuristic iabs
  split_ifs <;> omega

/-- The Manhattan distance never exceeds the number of moves of a walk. -/
theorem heuristic_le_walk {grid : Grid} {start p : Pos} {k : Int}
    (h : Walk grid start p k) : heuristic start p ≤ k := by
  induction h with
  | refl => rw [heuristic_self]
  | @step p q k _ hs _ ih =>
    have h1 := heuristic_step q p start (cardinalStep_symm hs)
    rw [heuristic_comm start q, heuristic_comm start p] at *
    omega

/-- The loop returns whenever the invariant holds and the fuel exceeds the measure.  It
returns the empty sequence only if no walk leads from the start to the goal, and
otherwise the reversed parent chain of a goal node whose cost is minimal. -/
theorem aStarLoop_spec (grid : Grid) (start goal : Pos) (tie : Nat → Nat) :
    ∀ (fuel : Nat) (st : State), Inv grid start goal st → measure grid start st < fuel →
      ∃ r, aStarLoop grid goal tie fuel st = some r ∧
        ((r = [] ∧ ∀ k, ¬ Walk grid start goal k) ∨
         ∃ n, r = reconstruct n ∧ ChainOK grid start n ∧ n.pos = goal ∧
           ∀ k, Walk grid start goal k → n.g ≤ k)
  | 0, _, _, h => absurd h (Nat.not_lt_zero _)
  | fuel + 1, st, hinv, hfuel => by
    unfold aStarLoop
    cases hpop : popTop (tie fuel) st.open_list with
    | none =>
      refine ⟨[], rfl, Or.inl ⟨rfl, ?_⟩⟩
      intro k hk
      obtain ⟨e, he, _⟩ := front_entry hinv hk hinv.goal_open
      rw [popTop_eq_none hpop] at he
      simp at he
    | some pr =>
      obtain ⟨cur, rest⟩ := pr
      obtain ⟨i, hi, hrest, htop⟩ := popTop_eq_some hpop
      subst hrest
      have hmem : cur ∈ st.open_list := List.getElem?_mem hi
      by_cases hg : cur.pos = goal
      · refine ⟨reconstruct cur, by simp [hg], Or.inr ⟨cur, rfl, (hinv.nodes_ok cur hmem).1, hg, ?_⟩⟩
        have := popped_optimal hinv hmem htop (by rw [hg]; exact hinv.goal_open)
        rw [hg] at this
        exact this
      · simp only [hg, if_false]
        exact aStarLoop_spec grid start goal tie fuel _ (inv_expand hinv hi htop hg)
          (by have := measure_expand hinv hi hg; omega)

/-- The function `aStar` returns on every input, with the result characterised as in
`aStarLoop_spec`. -/
theorem aStar_spec (tie : Nat → Nat) (grid : Grid) (start goal : Pos) :
    ∃ r, aStar tie grid start goal = some r ∧
      ((r = [] ∧ ∀ k, ¬ Walk grid start goal k) ∨
       ∃ n, r = reconstruct n ∧ ChainOK grid start n ∧ n.pos = goal ∧
         ∀ k, Walk grid start goal k → n.g ≤ k) :=
  aStarLoop_spec grid start goal tie (aStarFuel grid) (initState start goal)
    (inv_init grid start goal) (measure_init grid start goal)

theorem aStar_of_walk (tie : Nat → Nat) {grid : Grid} {start goal : Pos} {k : Int}
    (hw : Walk grid start goal k) :
    ∃ n, aStar tie grid start goal = some (reconstruct n) ∧ ChainOK grid start n ∧
      n.pos = goal ∧ ∀ j, Walk grid start goal j → n.g ≤ j := by
  obtain ⟨r, hr, hcase⟩ := aStar_spec tie grid start goal
  rcases hcase with ⟨_, hno⟩ | ⟨n, rfl, h1, h2, h3⟩
  · exact absurd hw (hno k)
  · exact ⟨n, hr, h1, h2, h3⟩

theorem aStar_of_no_walk (tie : Nat → Nat) {grid : Grid} {start goal : Pos}
    (hno : ∀ k, ¬ Walk grid start goal k) : aStar tie grid start goal = some [] := by
  obtain ⟨r, hr, hcase⟩ := aStar_spec tie grid start goal
  rcases hcase with ⟨rfl, _⟩ | ⟨n, _, h1, h2, _⟩
  · exact hr
  · have := chainOK_walk n h1
    rw [h2] at this
    exact absurd this (hno _)

/-- A returned sequence that is not empty is the reversed parent chain of a goal node. -/
theorem aStar_nonempty_chain {tie : Nat → Nat} {grid : Grid} {start goal : Pos}
    {path : List Pos} (h : aStar tie grid start goal = some path) (hne : path ≠ []) :
    ∃ n, path = reconstruct n ∧ ChainOK grid start n ∧ n.pos = goal := by
  obtain ⟨r, hr, hcase⟩ := aStar_spec tie grid start goal
  rw [h] at hr
  injection hr with hr
  subst hr
  rcases hcase with ⟨h0, _⟩ | ⟨n, h0, h1, h2, _⟩
  · exact absurd h0 hne
  · exact ⟨n, h0, h1, h2⟩

theorem list_of_length_one {α : Type} {l : List α} {a : α} (hlen : l.length = 1)
    (hhead : l.head? = some a) : l = [a] := by
  match l, hlen, hhead with
  | [b], _, h => simp at h; rw [h]

theorem list_of_length_two {α : Type} {l : List α} {a b : α} (hlen : l.length = 2)
    (hhead : l.head? = some a) (hlast : l.getLast? = some b) : l = [a, b] := by
  match l, hlen, hhead, hlast with
  | [c, d], _, h1, h2 =>
    simp at h1 h2
    rw [h1, h2]

/-- With start and goal identical the start node is popped first and is the goal. -/
theorem aStar_self (tie : Nat → Nat) (grid : Grid) (p : Pos) :
    aStar tie grid p p = some [p] := by
  obtain ⟨n, hn, h1, h2, h3⟩ := aStar_of_walk tie (@Walk.refl grid p)
  obtain ⟨i1, _, _, _, i5⟩ := reconstruct_spec h1
  have hg0 := walk_nonneg (chainOK_walk n h1)
  have hg1 := h3 0 Walk.refl
  have hlen : (reconstruct n).length = 1 := by omega
  rw [hn, list_of_length_one hlen i1]

/-- On the grid `[[1, 0]]` with the blocked cell as start, the search steps from the
start into the goal next to it. -/
theorem aStar_blocked_start_run (tie : Nat → Nat) :
    aStar tie [[1, 0]] (0, 0) (0, 1) = some [(0, 0), (0, 1)] := by
  have hw : Walk [[1, 0]] (0, 0) (0, 1) (0 + 1) :=
    Walk.step Walk.refl (by decide) (by decide)
  obtain ⟨n, hn, h1, h2, h3⟩ := aStar_of_walk tie hw
  obtain ⟨i1, i2, _, _, i5⟩ := reconstruct_spec h1
  have hg0 := heuristic_le_walk (chainOK_walk n h1)
  rw [h2] at hg0 i2
  have hh : heuristic (0, 0) (0, 1) = 1 := by decide
  have hg1 := h3 _ hw
  have hlen : (reconstruct n).length = 2 := by omega
  rw [hn, list_of_length_two hlen i1 i2]

/-- The grid `[[1, 0]]` has no path that begins at its blocked cell. -/
theorem blocked_start_unreachable : ¬ Reachable [[1, 0]] (0, 0) (0, 1) := by
  rintro ⟨path, h1, _, _, h4⟩
  have hmem : ((0, 0) : Pos) ∈ path := by
    cases path with
    | nil => simp at h1
    | cons a rest =>
      simp only [List.head?_cons, Option.some.injEq] at h1
      rw [h1]
      exact List.mem_cons_self _ _
  exact absurd (h4 _ hmem) (by decide)

/-! ### Specified properties of `aStar` -/

/-- A path of the grid of `main` from (0,0) to (4,4) with 8 steps. -/
theorem exampleGrid_path :
    PathFromTo exampleGrid (0, 0) (4, 4)
      [(0, 0), (0, 1), (0, 2), (1, 2), (2, 2), (2, 3), (2, 4), (3, 4), (4, 4)] := by
  refine ⟨rfl, rfl, ?_, by decide⟩
  simp only [List.chain'_cons, List.chain'_singleton, and_true]
  decide

/-- C1: on a non-empty rectangular grid, for in-bounds walkable start and goal with the
goal reachable from the start, `aStar` returns a non-empty sequence whose number of steps
(positions minus one) is the minimum number of steps of a path from start to goal; on the
grid of `main` with start (0,0) and goal (4,4) the result has 9 positions. -/
theorem aStar_returns_shortest_path :
    (∀ (tie : Nat → Nat) (grid : Grid) (start goal : Pos),
      grid ≠ [] → Rectangular grid → InBounds grid start → InBounds grid goal →
      Walkable grid start → Walkable grid goal → Reachable grid start goal →
      ∃ path, aStar tie grid start goal = some path ∧ path ≠ [] ∧
        IsMinSteps grid start goal (path.length - 1)) ∧
    (∀ tie : Nat → Nat, ∃ path, aStar tie exampleGrid (0, 0) (4, 4) = some path ∧
      path.length = 9) := by
  have hgen : ∀ (tie : Nat → Nat) (grid : Grid) (start goal : Pos),
      Walkable grid start → Reachable grid start goal →
      ∃ path, aStar tie grid start goal = some path ∧ path ≠ [] ∧
        IsMinSteps grid start goal (path.length - 1) := by
    intro tie grid start goal hs hreach
    obtain ⟨other, hother⟩ := hreach
    obtain ⟨n, hn, h1, h2, h3⟩ := aStar_of_walk tie (walk_of_path hother)
    have hpath := reconstruct_path h1 hs
    rw [h2] at hpath
    have hlen := (reconstruct_spec h1).2.2.2.2
    refine ⟨reconstruct n, hn, reconstruct_ne_nil h1, ⟨reconstruct n, hpath, rfl⟩, ?_⟩
    intro q hq
    have := h3 _ (walk_of_path hq)
    omega
  refine ⟨fun tie grid start goal _ _ _ _ hs _ hr => hgen tie grid start goal hs hr, ?_⟩
  intro tie
  obtain ⟨path, hp, hne, ⟨q, hq, hqlen⟩, hmin⟩ :=
    hgen tie exampleGrid (0, 0) (4, 4) (by decide) ⟨_, exampleGrid_path⟩
  refine ⟨path, hp, ?_⟩
  have h8 := hmin _ exampleGrid_path
  have hlow := heuristic_le_walk (walk_of_path hq)
  have hh : heuristic (0, 0) (4, 4) = 8 := by decide
  have hpos : 0 < path.length := List.length_pos.2 hne
  simp only [List.length_cons, List.length_nil] at h8
  omega

/-- C1 at the grid of `main`, with the oracle that always proposes index 0. -/
theorem aStar_returns_shortest_path_witness :
    ∃ path, aStar (fun _ => 0) exampleGrid (0, 0) (4, 4) = some path ∧ path ≠ [] ∧
      IsMinSteps exampleGrid (0, 0) (4, 4) (path.length - 1) :=
  aStar_returns_shortest_path.1 (fun _ => 0) exampleGrid (0, 0) (4, 4) (by decide) (by decide)
    (by decide) (by decide) (by decide) (by decide) ⟨_, exampleGrid_path⟩

/-- C2, counterexample: on the non-empty rectangular grid `[[1, 0]]` with in-bounds start
(0,0) and goal (0,1), `aStar` returns the non-empty sequence (0,0), (0,1) whose first
position is not walkable. -/
theorem aStar_path_not_walkable :
    ([[1, 0]] : Grid) ≠ [] ∧ Rectangular [[1, 0]] ∧ InBounds [[1, 0]] (0, 0) ∧
    InBounds [[1, 0]] (0, 1) ∧
    (∀ tie : Nat → Nat, aStar tie [[1, 0]] (0, 0) (0, 1) = some [(0, 0), (0, 1)]) ∧
    ¬ Walkable [[1, 0]] (0, 0) :=
  ⟨by decide, by decide, by decide, by decide, aStar_blocked_start_run, by decide⟩

/-- C2, amended: on a non-empty rectangular grid with in-bounds start and goal, if `aStar`
returns a non-empty sequence then every two consecutive positions of it differ by exactly one
cardinal step and every position after the first is walkable; when the start is walkable,
every position is walkable. -/
theorem aStar_path_steps_walkable (tie : Nat → Nat) (grid : Grid) (start goal : Pos)
    (_hne : grid ≠ []) (_hrect : Rectangular grid) (_hs : InBounds grid start)
    (_hg : InBounds grid goal) (path : List Pos)
    (h : aStar tie grid start goal = some path) (hpath : path ≠ []) :
    List.Chain' CardinalStep path ∧ (∀ p ∈ path.tail, Walkable grid p) ∧
    (Walkable grid start → ∀ p ∈ path, Walkable grid p) := by
  obtain ⟨n, rfl, h1, _⟩ := aStar_nonempty_chain h hpath
  obtain ⟨i1, _, i3, i4, _⟩ := reconstruct_spec h1
  exact ⟨i3, i4, walkable_of_tail i1 i4⟩

/-- C2, amended, at the grid of `main`. -/
theorem aStar_path_steps_walkable_witness :
    List.Chain' CardinalStep
      [(0, 0), (0, 1), (0, 2), (1, 2), (2, 2), (2, 3), (2, 4), (3, 4), ((4, 4) : Pos)] ∧
    (∀ p ∈ [(0, 0), (0, 1), (0, 2), (1, 2), (2, 2), (2, 3), (2, 4), (3, 4),
        ((4, 4) : Pos)].tail, Walkable exampleGrid p) ∧
    (Walkable exampleGrid (0, 0) →
      ∀ p ∈ [(0, 0), (0, 1), (0, 2), (1, 2), (2, 2), (2, 3), (2, 4), (3, 4), ((4, 4) : Pos)],
        Walkable exampleGrid p) :=
  aStar_path_steps_walkable (fun _ => 0) exampleGrid (0, 0) (4, 4) (by decide) (by decide)
    (by decide) (by decide) _ (by decide) (by decide)

/-- C3: on a non-empty rectangular grid with in-bounds start and goal, if `aStar` returns a
non-empty sequence then its first position is the start and its last position is the
goal. -/
theorem aStar_path_endpoints (tie : Nat → Nat) (grid : Grid) (start goal : Pos)
    (_hne : grid ≠ []) (_hrect : Rectangular grid) (_hs : InBounds grid start)
    (_hg : InBounds grid goal) (path : List Pos)
    (h : aStar tie grid start goal = some path) (hpath : path ≠ []) :
    path.head? = some start ∧ path.getLast? = some goal := by
  obtain ⟨n, rfl, h1, h2⟩ := aStar_nonempty_chain h hpath
  obtain ⟨i1, i2, _⟩ := reconstruct_spec h1
  exact ⟨i1, h2 ▸ i2⟩

/-- C3 at the grid of `main`. -/
theorem aStar_path_endpoints_witness :
    [(0, 0), (0, 1), (0, 2), (1, 2), (2, 2), (2, 3), (2, 4), (3, 4), ((4, 4) : Pos)].head?
      = some (0, 0) ∧
    [(0, 0), (0, 1), (0, 2), (1, 2), (2, 2), (2, 3), (2, 4), (3, 4), ((4, 4) : Pos)].getLast?
      = some (4, 4) :=
  aStar_path_endpoints (fun _ => 0) exampleGrid (0, 0) (4, 4) (by decide) (by decide)
    (by decide) (by decide) _ (by decide) (by decide)

/-- C4: on a non-empty rectangular grid, for an in-bounds walkable position `p`,
`aStar(grid, p, p)` returns the sequence that consists of `p` alone. -/
theorem aStar_start_is_goal (tie : Nat → Nat) (grid : Grid) (p : Pos)
    (_hne : grid ≠ []) (_hrect : Rectangular grid) (_hp : InBounds grid p)
    (_hw : Walkable grid p) : aStar tie grid p p = some [p] :=
  aStar_self tie grid p

/-- C4 at position (2,2) of the grid of `main`. -/
theorem aStar_start_is_goal_witness :
    aStar (fun _ => 0) exampleGrid (2, 2) (2, 2) = some [(2, 2)] :=
  aStar_start_is_goal (fun _ => 0) exampleGrid (2, 2) (by decide) (by decide) (by decide)
    (by decide)

/-- A property of the start that is kept by every move into a walkable cell holds at the
end of every walk. -/
theorem walk_invariant {grid : Grid} {start : Pos} (P : Pos → Prop) (h0 : P start)
    (hstep : ∀ p q, P p → CardinalStep p q → Walkable grid q → P q) {p : Pos} {k : Int}
    (h : Walk grid start p k) : P p := by
  induction h with
  | refl => exact h0
  | step _ hs hq ih => exact hstep _ _ ih hs hq

/-- In the grid `[[0, 1, 0]]` the wall in the middle separates the two free cells. -/
theorem wall_unreachable : ¬ Reachable [[0, 1, 0]] (0, 0) (0, 2) := by
  rintro ⟨path, hpath⟩
  have h := @walk_invariant [[0, 1, 0]] (0, 0) (fun p => p = (0, 0)) rfl
    (by
      rintro p ⟨qx, qy⟩ hp hs hq
      subst hp
      exfalso
      obtain ⟨b1, b2, b3, b4⟩ := walkable_bounds hq
      have hr : rows [[0, 1, 0]] = 1 := rfl
      have hc : cols [[0, 1, 0]] = 3 := rfl
      simp only [hr, hc] at b1 b2 b3 b4
      unfold CardinalStep iabs at hs
      simp only at b1 b2 b3 b4 hs
      have hx : qx = 0 := by omega
      have hy : qy = 1 := by
        rcases hs with ⟨h1, h2⟩ | ⟨h1, h2⟩ <;> split_ifs at * <;> omega
      subst hx hy
      exact absurd hq (by decide))
    _ _ (walk_of_path hpath)
  exact absurd h (by decide)

/-- C5, counterexample: on the non-empty rectangular grid `[[1, 0]]` with in-bounds start
(0,0) and goal (0,1) the goal is not reachable from the start through walkable cells (the
start, its only neighbour, is blocked), and `aStar` returns the sequence (0,0), (0,1)
instead of the empty sequence. -/
theorem aStar_unreachable_nonempty :
    ([[1, 0]] : Grid) ≠ [] ∧ Rectangular [[1, 0]] ∧ InBounds [[1, 0]] (0, 0) ∧
    InBounds [[1, 0]] (0, 1) ∧ ¬ Reachable [[1, 0]] (0, 0) (0, 1) ∧
    (∀ tie : Nat → Nat, aStar tie [[1, 0]] (0, 0) (0, 1) = some [(0, 0), (0, 1)]) :=
  ⟨by decide, by decide, by decide, by decide, blocked_start_unreachable,
    aStar_blocked_start_run⟩

/-- C5, amended: on a non-empty rectangular grid with in-bounds start and goal and a
walkable start, if the goal is unreachable from the start (no sequence of 4-connected moves
through walkable cells leads from start to goal), `aStar` returns the empty sequence. -/
theorem aStar_unreachable_empty (tie : Nat → Nat) (grid : Grid) (start goal : Pos)
    (_hne : grid ≠ []) (_hrect : Rectangular grid) (_hs : InBounds grid start)
    (_hg : InBounds grid goal) (hw : Walkable grid start)
    (hun : ¬ Reachable grid start goal) : aStar tie grid start goal = some [] := by
  apply aStar_of_no_walk
  intro k hk
  obtain ⟨n, _, h1, h2, _⟩ := aStar_of_walk tie hk
  exact hun ⟨reconstruct n, h2 ▸ reconstruct_path h1 hw⟩

/-- C5, amended, at the grid `[[0, 1, 0]]` from its left cell to its right cell. -/
theorem aStar_unreachable_empty_witness :
    aStar (fun _ => 0) [[0, 1, 0]] (0, 0) (0, 2) = some [] :=
  aStar_unreachable_empty (fun _ => 0) [[0, 1, 0]] (0, 0) (0, 2) (by decide) (by decide)
    (by decide) (by decide) (by decide) wall_unreachable

/-- C6, counterexample: on the non-empty rectangular grid `[[1]]` with start and goal both
the in-bounds cell (0,0), whose grid value is 1, `aStar` returns the sequence (0,0) instead
of the empty sequence. -/
theorem aStar_blocked_goal_nonempty :
    ([[1]] : Grid) ≠ [] ∧ Rectangular [[1]] ∧ InBounds [[1]] (0, 0) ∧
    cellAt [[1]] 0 0 = some 1 ∧
    (∀ tie : Nat → Nat, aStar tie [[1]] (0, 0) (0, 0) = some [(0, 0)]) :=
  ⟨by decide, by decide, by decide, by decide, fun tie => aStar_self tie [[1]] (0, 0)⟩

/-- C6, amended: on a non-empty rectangular grid with in-bounds start and goal, if the goal
cell is blocked and the start is not the goal then `aStar` returns the empty sequence. -/
theorem aStar_blocked_goal_empty (tie : Nat → Nat) (grid : Grid) (start goal : Pos)
    (_hne : grid ≠ []) (_hrect : Rectangular grid) (_hs : InBounds grid start)
    (_hg : InBounds grid goal) (hblocked : ¬ Walkable grid goal) (hneq : start ≠ goal) :
    aStar tie grid start goal = some [] := by
  apply aStar_of_no_walk
  intro k hk
  cases hk with
  | refl => exact hneq rfl
  | step _ _ hq => exact hblocked hq

/-- C6, amended, at the grid `[[0, 1]]` from its free cell to its blocked cell. -/
theorem aStar_blocked_goal_empty_witness :
    aStar (fun _ => 0) [[0, 1]] (0, 0) (0, 1) = some [] :=
  aStar_blocked_goal_empty (fun _ => 0) [[0, 1]] (0, 0) (0, 1) (by decide) (by decide)
    (by decide) (by decide) (by decide) (by decide)

theorem eq_some_getD {α : Type} {o : Option α} (h : o.isSome = true) (d : α) :
    o = some (o.getD d) := by
  cases o with
  | none => simp at h
  | some a => rfl

theorem detourState_reached :
    aStarStates detourGrid (0, 4) (fun _ => 1) 8 (initState (2, 0) (0, 4))
      = some detourState :=
  eq_some_getD (by decide) _

theorem detourPop_eq :
    popTop 1 detourState.open_list = some (detourPop.1, detourPop.2) :=
  eq_some_getD (by decide) (Node.new 0 0 0 0 none, [])

theorem cols_eq_of_head {grid : Grid} {row0 : List Int} (h : grid[0]? = some row0) :
    cols grid = row0.length := by
  cases grid with
  | nil => simp at h
  | cons a t =>
    simp only [List.getElem?_cons_zero, Option.some.injEq] at h
    subst h
    rfl

theorem cellAt_of_bounds {grid : Grid} (hrect : Rectangular grid) {x y : Int}
    (hx0 : 0 ≤ x) (hx1 : x < (rows grid : Int)) (hy0 : 0 ≤ y) (hy1 : y < (cols grid : Int)) :
    ∃ c, cellAt grid x y = some c := by
  have hxl : x.toNat < grid.length := by unfold rows at hx1; omega
  have hrow : grid[x.toNat] ∈ grid := List.getElem_mem hxl
  have hlen := hrect _ hrow
  have hyl : y.toNat < (grid[x.toNat]).length := by rw [hlen]; omega
  refine ⟨(grid[x.toNat])[y.toNat], ?_⟩
  unfold cellAt
  rw [if_pos ⟨hx0, hy0⟩, List.getElem?_eq_getElem hxl]
  exact List.getElem?_eq_getElem hyl

/-- C12: for every rectangular grid (the empty grid included) and all integers `x`, `y`,
`isWalkable(grid, x, y)` is true if and only if `0 <= x < rows`, `0 <= y < columns` and
`grid[x][y] == 0`; and its evaluation never reads outside the grid: with every vector
access checked it still returns, and returns the same value. -/
theorem isWalkable_iff_in_bounds_zero (grid : Grid) (hrect : Rectangular grid) (x y : Int) :
    (isWalkable grid x y = true ↔
      (0 ≤ x ∧ x < (rows grid : Int) ∧ 0 ≤ y ∧ y < (cols grid : Int) ∧
        cellAt grid x y = some 0)) ∧
    isWalkableChecked grid x y = some (isWalkable grid x y) := by
  constructor
  · unfold isWalkable
    simp only [Bool.and_eq_true, decide_eq_true_eq, beq_iff_eq]
    tauto
  · unfold isWalkableChecked isWalkable
    by_cases hx : 0 ≤ x ∧ x < (rows grid : Int)
    · rw [if_pos hx]
      by_cases hy : 0 ≤ y
      · rw [if_pos hy]
        have hne : 0 < grid.length := by
          have := hx.2
          unfold rows at this
          omega
        rw [List.getElem?_eq_getElem hne]
        have hcols : cols grid = (grid[0]).length :=
          cols_eq_of_head (List.getElem?_eq_getElem hne)
        simp only
        by_cases hy1 : y < ((grid[0]).length : Int)
        · rw [if_pos hy1]
          obtain ⟨c, hc⟩ := cellAt_of_bounds hrect hx.1 hx.2 hy (by rw [hcols]; exact hy1)
          rw [hc]
          simp [hx.1, hx.2, hy, hcols, hy1]
        · rw [if_neg hy1]
          simp [hcols, hy1]
      · rw [if_neg hy]
        simp [hy]
    · rw [if_neg hx]
      have : (decide (0 ≤ x) && decide (x < (rows grid : Int))) = false := by
        rw [Bool.and_eq_false_iff]
        simp only [decide_eq_false_iff_not]
        tauto
      simp [this]

/-- C12 at the grid of `main` and the cell (0, 0). -/
theorem isWalkable_iff_in_bounds_zero_witness :
    (isWalkable exampleGrid 0 0 = true ↔
      ((0 : Int) ≤ 0 ∧ (0 : Int) < (rows exampleGrid : Int) ∧ (0 : Int) ≤ 0 ∧
        (0 : Int) < (cols exampleGrid : Int) ∧ cellAt exampleGrid 0 0 = some 0)) ∧
    isWalkableChecked exampleGrid 0 0 = some (isWalkable exampleGrid 0 0) :=
  isWalkable_iff_in_bounds_zero exampleGrid (by decide) 0 0

theorem iabs_eq_abs (z : Int) : iabs z = |z| := by
  unfold iabs
  split_ifs with h
  · rw [abs_of_neg h]
  · rw [abs_of_nonneg (by omega)]

/-- C17: `heuristic` is an admissible estimate: on a rectangular grid, for a walkable
position `p` and a goal reachable from `p`, `heuristic(p, goal)`, which is
`|p.first - goal.first| + |p.second - goal.second|`, is at most the number of steps of every
path from `p` to the goal, hence at most the minimum number of steps; and
`heuristic(goal, goal) = 0`. -/
theorem heuristic_admissible (grid : Grid) (_hrect : Rectangular grid) (p goal : Pos)
    (_hp : Walkable grid p) (_hreach : Reachable grid p goal) :
    heuristic p goal = |p.1 - goal.1| + |p.2 - goal.2| ∧
    (∀ path, PathFromTo grid p goal path → heuristic p goal ≤ (path.length : Int) - 1) ∧
    (∀ k, IsMinSteps grid p goal k → heuristic p goal ≤ (k : Int)) ∧
    heuristic goal goal = 0 := by
  have hall : ∀ path, PathFromTo grid p goal path →
      heuristic p goal ≤ (path.length : Int) - 1 :=
    fun path hpath => heuristic_le_walk (walk_of_path hpath)
  refine ⟨by simp only [heuristic, iabs_eq_abs], hall, ?_, heuristic_self goal⟩
  rintro k ⟨⟨path, hpath, hlen⟩, _⟩
  have h1 := hall path hpath
  have h2 : 0 < path.length := by
    cases path with
    | nil => simp [PathFromTo] at hpath
    | cons a t => simp
  omega

/-- C17 at the grid of `main`, from (0, 0) to (4, 4). -/
theorem heuristic_admissible_witness :
    heuristic (0, 0) (4, 4) = |((0, 0) : Pos).1 - ((4, 4) : Pos).1|
      + |((0, 0) : Pos).2 - ((4, 4) : Pos).2| ∧
    (∀ path, PathFromTo exampleGrid (0, 0) (4, 4) path →
      heuristic (0, 0) (4, 4) ≤ (path.length : Int) - 1) ∧
    (∀ k, IsMinSteps exampleGrid (0, 0) (4, 4) k → heuristic (0, 0) (4, 4) ≤ (k : Int)) ∧
    heuristic (4, 4) (4, 4) = 0 :=
  heuristic_admissible exampleGrid (by decide) (0, 0) (4, 4) (by decide)
    ⟨_, exampleGrid_path⟩

theorem heuristic_step_exact (p q goal : Pos) (h : CardinalStep p q) :
    iabs (heuristic p goal - heuristic q goal) = 1 := by
  unfold CardinalStep iabs at h
  unfold heuristic iabs
  rcases h with ⟨h1, h2⟩ | ⟨h1, h2⟩ <;> split_ifs at * <;> omega

theorem toInt32_eq {z : Int} (h1 : -2147483648 ≤ z) (h2 : z ≤ 2147483647) :
    toInt32 z = z := by
  unfold toInt32
  omega

/-- Where the Manhattan distance is at most `INT_MAX`, the 32-bit computation yields it. -/
theorem heuristicInt32_eq {p goal : Pos} (h : heuristic p goal ≤ 2147483647) :
    heuristicInt32 p goal = heuristic p goal := by
  have h1 := iabs_nonneg (p.1 - goal.1)
  have h2 := iabs_nonneg (p.2 - goal.2)
  unfold heuristic at h
  have e1 : toInt32 (p.1 - goal.1) = p.1 - goal.1 := by
    apply toInt32_eq <;> (unfold iabs at h h1 h2; split_ifs at h h1 h2 <;> omega)
  have e2 : toInt32 (p.2 - goal.2) = p.2 - goal.2 := by
    apply toInt32_eq <;> (unfold iabs at h h1 h2; split_ifs at h h1 h2 <;> omega)
  have e3 : toInt32 (iabs (p.1 - goal.1)) = iabs (p.1 - goal.1) :=
    toInt32_eq (by omega) (by omega)
  have e4 : toInt32 (iabs (p.2 - goal.2)) = iabs (p.2 - goal.2) :=
    toInt32_eq (by omega) (by omega)
  unfold heuristicInt32 heuristic
  rw [e1, e2, e3, e4]
  exact toInt32_eq (by omega) (by omega)

/-- C20, counterexample: with goal (-2147483648, 0) the cardinally adjacent positions
(1, 0) and (0, 0) get the 32-bit heuristic values 2147483647 and -2147483648, which do not
differ by 1; and the neighbour (0, 0) reached with `g + 1 = 1` from the node at (1, 0) with
`g = 0` has `f = -2147483647`, smaller than the `f = 2147483647` of the node it was reached
from. -/
theorem heuristic_int32_not_consistent :
    CardinalStep (1, 0) (0, 0) ∧
    heuristicInt32 (1, 0) (-2147483648, 0) = 2147483647 ∧
    heuristicInt32 (0, 0) (-2147483648, 0) = -2147483648 ∧
    iabs (heuristicInt32 (1, 0) (-2147483648, 0) - heuristicInt32 (0, 0) (-2147483648, 0))
      ≠ 1 ∧
    toInt32 (0 + heuristicInt32 (1, 0) (-2147483648, 0)) = 2147483647 ∧
    toInt32 (toInt32 (0 + 1) + heuristicInt32 (0, 0) (-2147483648, 0)) = -2147483647 ∧
    toInt32 (toInt32 (0 + 1) + heuristicInt32 (0, 0) (-2147483648, 0))
      < toInt32 (0 + heuristicInt32 (1, 0) (-2147483648, 0)) := by
  decide

/-- C20, amended: `heuristic` is consistent for unit-cost 4-connected moves wherever the
Manhattan distances fit a 32-bit `int`: for every goal and every two cardinally adjacent
positions `p` and `q` whose Manhattan distances to the goal are at most `INT_MAX`, the
32-bit values `heuristic(p, goal)` and `heuristic(q, goal)` are those distances and differ
by exactly 1; hence for every `g >= 0` with `g + 1 + heuristic(q, goal)` at most `INT_MAX`,
the nodes built for `p` with `g` and for `q` with `g + 1` carry the `f` values that the
32-bit code computes, and the `f` of the neighbour `q` is not smaller than the `f` of the
node at `p`. -/
theorem heuristic_consistent_in_range (goal p q : Pos) (h : CardinalStep p q)
    (hp : heuristic p goal ≤ 2147483647) (hq : heuristic q goal ≤ 2147483647) :
    heuristicInt32 p goal = heuristic p goal ∧
    heuristicInt32 q goal = heuristic q goal ∧
    iabs (heuristicInt32 p goal - heuristicInt32 q goal) = 1 ∧
    (∀ (g : Int) (parent parent' : Option Node), 0 ≤ g →
      g + 1 + heuristicInt32 q goal ≤ 2147483647 →
      (Node.new p.1 p.2 g (heuristic p goal) parent).f
        = toInt32 (g + heuristicInt32 p goal) ∧
      (Node.new q.1 q.2 (g + 1) (heuristic q goal) parent').f
        = toInt32 (toInt32 (g + 1) + heuristicInt32 q goal) ∧
      toInt32 (g + heuristicInt32 p goal)
        ≤ toInt32 (toInt32 (g + 1) + heuristicInt32 q goal)) := by
  have ep := heuristicInt32_eq hp
  have eq := heuristicInt32_eq hq
  rw [ep, eq]
  refine ⟨rfl, rfl, heuristic_step_exact p q goal h, ?_⟩
  intro g parent parent' hg hfit
  have h1 := heuristic_step p q goal h
  have h2 := heuristic_nonneg p goal
  have h3 := heuristic_nonneg q goal
  have e1 : toInt32 (g + heuristic p goal) = g + heuristic p goal :=
    toInt32_eq (by omega) (by omega)
  have e2 : toInt32 (g + 1) = g + 1 := toInt32_eq (by omega) (by omega)
  have e3 : toInt32 (g + 1 + heuristic q goal) = g + 1 + heuristic q goal :=
    toInt32_eq (by omega) (by omega)
  rw [e2, e1, e3, Node.new_f, Node.new_f]
  exact ⟨rfl, rfl, by omega⟩

/-- C20, amended, at the adjacent positions (0, 0) and (0, 1) with goal (4, 4). -/
theorem heuristic_consistent_in_range_witness :
    heuristicInt32 (0, 0) (4, 4) = heuristic (0, 0) (4, 4) ∧
    heuristicInt32 (0, 1) (4, 4) = heuristic (0, 1) (4, 4) ∧
    iabs (heuristicInt32 (0, 0) (4, 4) - heuristicInt32 (0, 1) (4, 4)) = 1 ∧
    (∀ (g : Int) (parent parent' : Option Node), 0 ≤ g →
      g + 1 + heuristicInt32 (0, 1) (4, 4) ≤ 2147483647 →
      (Node.new ((0, 0) : Pos).1 ((0, 0) : Pos).2 g (heuristic (0, 0) (4, 4)) parent).f
        = toInt32 (g + heuristicInt32 (0, 0) (4, 4)) ∧
      (Node.new ((0, 1) : Pos).1 ((0, 1) : Pos).2 (g + 1) (heuristic (0, 1) (4, 4))
          parent').f
        = toInt32 (toInt32 (g + 1) + heuristicInt32 (0, 1) (4, 4)) ∧
      toInt32 (g + heuristicInt32 (0, 0) (4, 4))
        ≤ toInt32 (toInt32 (g + 1) + heuristicInt32 (0, 1) (4, 4))) :=
  heuristic_consistent_in_range (4, 4) (0, 0) (0, 1) (by decide) (by decide) (by decide)

/-! ### Specified properties of the states of the loop -/

/-- Every state that the loop reaches from a state with the invariant has the invariant. -/
theorem states_inv {grid : Grid} {start goal : Pos} {tie : Nat → Nat} :
    ∀ (n : Nat) (st0 st : State), Inv grid start goal st0 →
      aStarStates grid goal tie n st0 = some st → Inv grid start goal st
  | 0, st0, st, hinv, h => by
    simp only [aStarStates, Option.some.injEq] at h
    exact h ▸ hinv
  | n + 1, st0, st, hinv, h => by
    unfold aStarStates at h
    cases hpop : popTop (tie n) st0.open_list with
    | none => rw [hpop] at h; cases h
    | some pr =>
      obtain ⟨cur, rest⟩ := pr
      rw [hpop] at h
      obtain ⟨i, hi, hrest, htop⟩ := popTop_eq_some hpop
      subst hrest
      by_cases hg : cur.pos = goal
      · simp [hg] at h
      · simp only [hg, if_false] at h
        exact states_inv n _ st (inv_expand hinv hi htop hg) h

/-- A popped node whose `g` exceeds the `g` recorded in `node_map` for its position sits on
a closed position that is not the goal, and expanding it changes nothing. -/
theorem stale_pop_unchanged {grid : Grid} {start goal : Pos} {st : State}
    (hinv : Inv grid start goal st) {t : Nat} {cur : Node} {rest : List Node}
    (hpop : popTop t st.open_list = some (cur, rest)) {m : Node}
    (hm : st.node_map cur.pos = some m) (hstale : m.g < cur.g) :
    cur.pos ≠ goal ∧ cur.pos ∈ st.closed_list ∧
    expand grid goal cur
        { open_list := rest, closed_list := st.closed_list, node_map := st.node_map }
      = { open_list := rest, closed_list := st.closed_list, node_map := st.node_map } := by
  obtain ⟨i, hi, hrest, htop⟩ := popTop_eq_some hpop
  subst hrest
  have hmem : cur ∈ st.open_list := List.getElem?_mem hi
  have hcur := (hinv.nodes_ok cur hmem).1
  have hclosed : cur.pos ∈ st.closed_list := by
    by_contra hnc
    have h1 := popped_optimal hinv hmem htop hnc m.g (hinv.map_ok _ m hm).1
    omega
  have hgoal : cur.pos ≠ goal := by
    intro h
    rw [h] at hclosed
    exact hinv.goal_open hclosed
  refine ⟨hgoal, hclosed, ?_⟩
  have hmid := mid_of_inv hinv hi hgoal
  unfold expand
  rw [stale_fold hcur hmid hclosed, List.insert_of_mem hclosed]

/-- C13: in every state reached during `aStar` on a non-empty rectangular grid, when the
node popped from the open list is stale (its `g` is greater than the `g` recorded in
`node_map` for its position), it is not the goal and processing it pushes nothing onto the
open list, changes no `node_map` entry and leaves the closed set as it is. -/
theorem aStar_stale_pop_discarded (tie : Nat → Nat) (grid : Grid) (start goal : Pos)
    (_hne : grid ≠ []) (_hrect : Rectangular grid) (n : Nat) (st : State)
    (hreach : aStarStates grid goal tie n (initState start goal) = some st)
    (t : Nat) (cur : Node) (rest : List Node)
    (hpop : popTop t st.open_list = some (cur, rest)) (m : Node)
    (hm : st.node_map cur.pos = some m) (hstale : m.g < cur.g) :
    cur.pos ≠ goal ∧
    expand grid goal cur
        { open_list := rest, closed_list := st.closed_list, node_map := st.node_map }
      = { open_list := rest, closed_list := st.closed_list, node_map := st.node_map } := by
  have hinv := states_inv n _ st (inv_init grid start goal) hreach
  obtain ⟨h1, _, h3⟩ := stale_pop_unchanged hinv hpop hm hstale
  exact ⟨h1, h3⟩

/-- C13 on `detourGrid`: after 8 iterations the node for (0,1) with `g = 5` is popped while
`node_map` records `g = 3` for (0,1). -/
theorem aStar_stale_pop_discarded_witness :
    detourPop.1.pos = (0, 1) ∧ detourPop.1.g = 5 ∧
    (detourState.node_map (0, 1)).map Node.g = some 3 ∧
    detourPop.1.pos ≠ (0, 4) ∧
    expand detourGrid (0, 4) detourPop.1
        { open_list := detourPop.2, closed_list := detourState.closed_list,
          node_map := detourState.node_map }
      = { open_list := detourPop.2, closed_list := detourState.closed_list,
          node_map := detourState.node_map } :=
  ⟨by decide, by decide, by decide,
    aStar_stale_pop_discarded (fun _ => 1) detourGrid (2, 0) (0, 4) (by decide) (by decide) 8
      detourState detourState_reached 1 detourPop.1 detourPop.2 detourPop_eq
      ((detourState.node_map (0, 1)).getD (Node.new 0 0 0 0 none))
      (eq_some_getD (by decide) _) (by decide)⟩

/-- C18: for every non-empty rectangular grid and every start and goal, the main loop of
`aStar` terminates: with `aStarFuel grid` or more iterations allowed it returns.  A position
is pushed only when `node_map` has no node for it or records a strictly greater `g`, and
each pass over a neighbour pushes at most one node. -/
theorem aStar_terminates (tie : Nat → Nat) (grid : Grid) (start goal : Pos)
    (_hne : grid ≠ []) (_hrect : Rectangular grid) :
    (∃ r, aStar tie grid start goal = some r) ∧
    (∀ fuel, aStarFuel grid ≤ fuel →
      ∃ r, aStarLoop grid goal tie fuel (initState start goal) = some r) ∧
    (∀ (st : State) (cur : Node) (i : Nat),
      (visitNeighbor grid goal cur st i).open_list ≠ st.open_list →
        (st.node_map (neighborPos cur i) = none ∨
          ∃ m, st.node_map (neighborPos cur i) = some m ∧ cur.g + 1 < m.g) ∧
        (visitNeighbor grid goal cur st i).open_list.length = st.open_list.length + 1 ∧
        ((visitNeighbor grid goal cur st i).node_map (neighborPos cur i)).map Node.g
          = some (cur.g + 1)) := by
  refine ⟨?_, ?_, ?_⟩
  · obtain ⟨r, hr, _⟩ := aStar_spec tie grid start goal
    exact ⟨r, hr⟩
  · intro fuel hfuel
    obtain ⟨r, hr, _⟩ := aStarLoop_spec grid start goal tie fuel (initState start goal)
      (inv_init grid start goal) (lt_of_lt_of_le (measure_init grid start goal) hfuel)
    exact ⟨r, hr⟩
  · intro st cur i hchange
    rcases visitNeighbor_cases grid goal cur st i with ⟨heq, _⟩ | ⟨_, _, hbetter, heq⟩
    · rw [heq] at hchange
      exact absurd rfl hchange
    · rw [heq]
      refine ⟨?_, by simp, by simp⟩
      cases hm : st.node_map (neighborPos cur i) with
      | none => exact Or.inl rfl
      | some m => exact Or.inr ⟨m, rfl, hbetter m hm⟩

/-- C18 at the grid of `main`. -/
theorem aStar_terminates_witness :
    ∃ r, aStar (fun _ => 0) exampleGrid (0, 0) (4, 4) = some r :=
  (aStar_terminates (fun _ => 0) exampleGrid (0, 0) (4, 4) (by decide) (by decide)).1

end AStar

/-! ## Properties of `Graph::dijkstra` -/

namespace Dijkstra

theorem wrapInt_eq {z : Int} (h1 : -2147483648 ≤ z) (h2 : z < 2147483648) : wrapInt z = z := by
  unfold wrapInt
  omega

theorem length_setI (l : List Int) (v x : Int) : (setI l v x).length = l.length := by
  simp [setI]

theorem getI_setI_eq {l : List Int} {v : Int} (x : Int) (h : v.toNat < l.length) :
    getI (setI l v x) v = x := by
  simp [getI, setI, List.getD_eq_getElem?_getD, List.getElem?_set, h]

theorem toNat_ne {u v : Int} (hu : 0 ≤ u) (hv : 0 ≤ v) (h : u ≠ v) : v.toNat ≠ u.toNat := by
  omega

theorem getI_setI_ne {l : List Int} {u v : Int} (x : Int) (hu : 0 ≤ u) (hv : 0 ≤ v)
    (h : u ≠ v) : getI (setI l v x) u = getI l u := by
  simp [getI, setI, List.getD_eq_getElem?_getD, List.getElem?_set, toNat_ne hu hv h]

theorem valid_toNat_lt {n : Nat} {v : Int} (h : ValidVertex n v) : v.toNat < n := by
  obtain ⟨h1, h2⟩ := h
  omega

theorem isVisited_lt {V : List Vertex} {v : Int} (h : isVisited V v = true) :
    v.toNat < V.length := by
  unfold isVisited at h
  by_contra hge
  rw [List.getElem?_eq_none (by omega)] at h
  simp at h

theorem isVisited_mark_self {V : List Vertex} {v : Int} (h : v.toNat < V.length) :
    isVisited (markVisited V v) v = true := by
  unfold isVisited markVisited
  rw [List.getElem?_eq_getElem h]
  simp only [List.getElem?_set, List.length_set, h, if_true, Vertex.setVisited]

theorem isVisited_mark_ne {V : List Vertex} {u v : Int} (hu : 0 ≤ u) (hv : 0 ≤ v)
    (h : u ≠ v) : isVisited (markVisited V v) u = isVisited V u := by
  unfold isVisited markVisited
  cases hx : V[v.toNat]? with
  | none => rfl
  | some x => simp [List.getElem?_set, toNat_ne hu hv h]

theorem isVisited_mark_mono {V : List Vertex} {u : Int} (v : Int)
    (h : isVisited V u = true) : isVisited (markVisited V v) u = true := by
  unfold isVisited markVisited at *
  cases hx : V[v.toNat]? with
  | none => simpa using h
  | some x =>
    by_cases hvu : v.toNat = u.toNat
    · have hlt : u.toNat < V.length := by
        by_contra hge
        rw [List.getElem?_eq_none (by omega)] at h
        simp at h
      simp [List.getElem?_set, hvu, hlt, Vertex.setVisited]
    · simpa [List.getElem?_set, hvu] using h

theorem adjacency_mark (V : List Vertex) (v : Int) :
    adjacency (markVisited V v) = adjacency V := by
  unfold markVisited
  cases hx : V[v.toNat]? with
  | none => rfl
  | some x =>
    simp only [adjacency]
    apply List.ext_getElem?
    intro i
    simp only [List.getElem?_map, List.getElem?_set]
    by_cases hi : v.toNat = i
    · subst hi
      have hlt : v.toNat < V.length := by
        by_contra hge
        rw [List.getElem?_eq_none (by omega)] at hx
        cases hx
      simp [hlt, hx, Vertex.setVisited]
    · simp [hi]

theorem length_mark (V : List Vertex) (v : Int) : (markVisited V v).length = V.length := by
  have := congrArg List.length (adjacency_mark V v)
  simpa [adjacency] using this

theorem edgesOf_eq (V : List Vertex) (u : Int) :
    edgesOf V u = ((adjacency V)[u.toNat]?).getD [] := by
  unfold edgesOf adjacency
  cases hx : V[u.toNat]? with
  | none => simp [hx]
  | some x => simp [hx]

theorem hasEdge_of_mem {V : List Vertex} {u : Int} {e : Edge} (hu : ValidVertex V.length u)
    (he : e ∈ edgesOf V u) : HasEdge (adjacency V) u e.destination e.weight := by
  refine ⟨hu.1, edgesOf V u, ?_, he⟩
  rw [edgesOf_eq]
  have hlt : u.toNat < (adjacency V).length := by
    simpa [adjacency] using valid_toNat_lt hu
  rw [List.getElem?_eq_getElem hlt]
  simp

theorem mem_of_hasEdge {V : List Vertex} {u v w : Int} (h : HasEdge (adjacency V) u v w) :
    ({ destination := v, weight := w } : Edge) ∈ edgesOf V u := by
  obtain ⟨_, es, h1, h2⟩ := h
  rw [edgesOf_eq, h1]
  exact h2

theorem hasEdge_valid {E : List (List Edge)} (hE : ValidEdges E) {u v w : Int}
    (h : HasEdge E u v w) : ValidVertex E.length u ∧ ValidVertex E.length v := by
  obtain ⟨h0, es, h1, h2⟩ := h
  have hmem : es ∈ E := List.getElem?_mem h1
  have hlt : u.toNat < E.length := by
    by_contra hge
    rw [List.getElem?_eq_none (by omega)] at h1
    cases h1
  exact ⟨⟨h0, by omega⟩, hE es hmem _ h2⟩

theorem hasEdge_nonneg {E : List (List Edge)} (hE : NonNegWeights E) {u v w : Int}
    (h : HasEdge E u v w) : 0 ≤ w := by
  obtain ⟨_, es, h1, h2⟩ := h
  exact hE es (List.getElem?_mem h1) _ h2

theorem dpath_valid {E : List (List Edge)} {s : Int} (hE : ValidEdges E)
    (hs : ValidVertex E.length s) {vs : List Int} {c : Int} (h : DPath E s vs c) :
    ∀ v ∈ vs, ValidVertex E.length v := by
  induction h with
  | single => intro v hv; simp at hv; rw [hv]; exact hs
  | cons _ he ih =>
    intro x hx
    rcases List.mem_cons.1 hx with rfl | hx
    · exact (hasEdge_valid hE he).2
    · exact ih x hx

theorem dpath_nonneg {E : List (List Edge)} {s : Int} (hE : NonNegWeights E)
    {vs : List Int} {c : Int} (h : DPath E s vs c) : 0 ≤ c := by
  induction h with
  | single => exact le_refl _
  | cons _ he ih =>
    have := hasEdge_nonneg hE he
    omega

theorem mem_pqInsert {e x : QueueElement} : ∀ {l : List QueueElement},
    x ∈ pqInsert e l ↔ x = e ∨ x ∈ l
  | [] => by simp [pqInsert]
  | a :: rest => by
    unfold pqInsert
    split_ifs
    · simp
    · simp only [List.mem_cons, mem_pqInsert (l := rest)]
      tauto

theorem elemLe_key {a b : QueueElement} (h : elemLe a b = true) : a.1 ≤ b.1 := by
  unfold elemLe at h
  simp only [Bool.or_eq_true, Bool.and_eq_true, decide_eq_true_eq] at h
  omega

theorem not_elemLe_key {a b : QueueElement} (h : ¬ elemLe a b = true) : b.1 ≤ a.1 := by
  unfold elemLe at h
  simp only [Bool.or_eq_true, Bool.and_eq_true, decide_eq_true_eq] at h
  omega

theorem sorted_pqInsert (e : QueueElement) : ∀ {l : List QueueElement},
    l.Pairwise (fun a b => a.1 ≤ b.1) → (pqInsert e l).Pairwise (fun a b => a.1 ≤ b.1)
  | [], _ => by simp [pqInsert]
  | a :: rest, h => by
    unfold pqInsert
    rw [List.pairwise_cons] at h
    split_ifs with hle
    · rw [List.pairwise_cons]
      refine ⟨?_, List.pairwise_cons.2 h⟩
      intro x hx
      have h1 := elemLe_key hle
      rcases List.mem_cons.1 hx with rfl | hx
      · exact h1
      · exact le_trans h1 (h.1 x hx)
    · rw [List.pairwise_cons]
      refine ⟨?_, sorted_pqInsert e h.2⟩
      intro x hx
      rcases mem_pqInsert.1 hx with rfl | hx
      · exact not_elemLe_key hle
      · exact h.1 x hx

/-- The result of the `do ... while` loop: the elements popped before the returned one
all have visited vertices, and the returned one has an unvisited vertex. -/
theorem popFresh_some {V : List Vertex} : ∀ {pq : List QueueElement} {e : QueueElement}
    {rest : List QueueElement}, popFresh V pq = some (e, rest) →
    ∃ pre, pq = pre ++ e :: rest ∧ (∀ x ∈ pre, isVisited V x.2.1 = true) ∧
      isVisited V e.2.1 = false
  | [], _, _, h => by simp [popFresh] at h
  | a :: l, e, rest, h => by
    unfold popFresh at h
    by_cases hv : isVisited V a.2.1 = true
    · simp only [hv, if_true] at h
      obtain ⟨pre, h1, h2, h3⟩ := popFresh_some h
      refine ⟨a :: pre, by rw [h1]; rfl, ?_, h3⟩
      intro x hx
      rcases List.mem_cons.1 hx with rfl | hx
      · exact hv
      · exact h2 x hx
    · simp only [hv] at h
      simp only [Bool.false_eq_true, if_false, Option.some.injEq, Prod.mk.injEq] at h
      obtain ⟨rfl, rfl⟩ := h
      exact ⟨[], rfl, by simp, by simpa using hv⟩

theorem popFresh_none {V : List Vertex} : ∀ {pq : List QueueElement},
    popFresh V pq = none → ∀ x ∈ pq, isVisited V x.2.1 = true
  | [], _ => by simp
  | a :: l, h => by
    unfold popFresh at h
    by_cases hv : isVisited V a.2.1 = true
    · simp only [hv, if_true] at h
      intro x hx
      rcases List.mem_cons.1 hx with rfl | hx
      · exact hv
      · exact popFresh_none h x hx
    · simp [hv] at h

theorem getI_setI_le {l : List Int} {v x : Int} (h : x ≤ getI l v) (u : Int) :
    getI (setI l v x) u ≤ getI l u := by
  unfold getI setI at *
  simp only [List.getD_eq_getElem?_getD, List.getElem?_set] at *
  by_cases huv : v.toNat = u.toNat
  · rw [huv] at h
    by_cases hlt : u.toNat < l.length
    · simp only [huv, hlt, if_true, Option.getD_some]
      exact h
    · simp only [huv, hlt, if_false, if_true]
      rw [List.getElem?_eq_none (by omega)]
  · simp only [huv, if_false]
    exact le_refl _

theorem getI_setI_other {l : List Int} {u v : Int} (x : Int) (h : v.toNat ≠ u.toNat) :
    getI (setI l v x) u = getI l u := by
  simp [getI, setI, List.getD_eq_getElem?_getD, List.getElem?_set, h]

/-- Two vertex ids of which one is visited and the other is not are different indices. -/
theorem toNat_ne_of_visited {V : List Vertex} {u v : Int} (hu : isVisited V u = true)
    (hv : isVisited V v = false) : v.toNat ≠ u.toNat := by
  intro h
  unfold isVisited at hu hv
  rw [h] at hv
  rw [hv] at hu
  cases hu

theorem ne_of_visited {V : List Vertex} {u v : Int} (hu : isVisited V u = true)
    (hv : isVisited V v = false) : u ≠ v := by
  rintro rfl
  rw [hu] at hv
  cases hv

/-- The two outcomes of relaxing one edge: nothing changes (the neighbour is visited or its
distance is not improved), or the distance is lowered and a queue element is pushed. -/
theorem relaxEdge_cases (V : List Vertex) (cur : Int) (acc : List Int × List QueueElement)
    (e : Edge) :
    (relaxEdge V cur acc e = acc ∧
      (isVisited V e.destination = true ∨
        getI acc.1 e.destination ≤ wrapInt (getI acc.1 cur + e.weight))) ∨
    (isVisited V e.destination = false ∧
      wrapInt (getI acc.1 cur + e.weight) < getI acc.1 e.destination ∧
      relaxEdge V cur acc e =
        (setI acc.1 e.destination (wrapInt (getI acc.1 cur + e.weight)),
         pqInsert (wrapInt (getI acc.1 cur + e.weight), (e.destination, cur)) acc.2)) := by
  unfold relaxEdge
  by_cases hv : isVisited V e.destination = true
  · left
    simp [hv]
  · by_cases hlt : wrapInt (getI acc.1 cur + e.weight) < getI acc.1 e.destination
    · right
      simp only [Bool.not_eq_true] at hv
      refine ⟨hv, hlt, ?_⟩
      simp [hv, hlt]
    · left
      simp only [Bool.not_eq_true] at hv
      refine ⟨?_, Or.inr (by omega)⟩
      simp [hv, hlt]

/-- Extending the recorded path of a visited vertex `u` by an edge into an unvisited vertex
gives a path without repetition; its cost is therefore in range. -/
theorem extend_bound {E : List (List Edge)} {s cur : Int} {done : List Edge}
    {V : List Vertex} {previous : List Int} {acc : List Int × List QueueElement}
    (hgood : Good E s) (hfull : Full E s cur done V previous acc) {u v w : Int}
    (hu : ValidVertex E.length u) (huv : isVisited V u = true) (he : HasEdge E u v w)
    (hv : isVisited V v = false) :
    0 ≤ getI acc.1 u + w ∧ getI acc.1 u + w < INT_MAX ∧
    ∃ vs, DPath E s (v :: vs) (getI acc.1 u + w) ∧ (v :: vs).Nodup ∧
      ∀ x ∈ vs, isVisited V x = true := by
  obtain ⟨vs, hp, hnd, hvis⟩ := hfull.path_cost u hu (hfull.visited_finite u hu huv)
  have hall : ∀ x ∈ u :: vs, isVisited V x = true := by
    intro x hx
    rcases List.mem_cons.1 hx with rfl | hx
    · exact huv
    · exact hvis x hx
  have hnew : DPath E s (v :: u :: vs) (getI acc.1 u + w) := DPath.cons hp he
  have hnd2 : (v :: u :: vs).Nodup := by
    rw [List.nodup_cons]
    refine ⟨?_, hnd⟩
    intro hmem
    have := hall v hmem
    rw [hv] at this
    cases this
  exact ⟨dpath_nonneg hgood.1 hnew, hgood.2 _ _ hnew hnd2, u :: vs, hnew, hnd2, hall⟩

/-- In a chain that starts at a visited vertex other than the source, the predecessor is a
valid visited vertex. -/
theorem prev_visited {E : List (List Edge)} {s cur : Int} {done : List Edge}
    {V : List Vertex} {previous : List Int} {acc : List Int × List QueueElement}
    (hmid : Mid E s cur done V previous acc) {v : Int} (hv : ValidVertex E.length v)
    (hvis : isVisited V v = true) (hne : v ≠ s) :
    ValidVertex E.length (getI previous v) ∧ isVisited V (getI previous v) = true := by
  obtain ⟨ch, h1, ⟨h2, h3, _⟩, h5⟩ := hmid.chain v hv hvis
  match ch, h1, h2, h3, h5 with
  | [a], h1, _, h3, _ =>
    simp at h1 h3
    exact absurd (h1.symm.trans h3) hne
  | a :: b :: rest, h1, h2, _, h5 =>
    simp at h1
    subst h1
    rw [List.chain'_cons] at h2
    rw [h2.1]
    exact h5 b (by simp)

theorem cur_edge {E : List (List Edge)} {s cur : Int} {done : List Edge}
    {V : List Vertex} {previous : List Int} {acc : List Int × List QueueElement}
    (hmid : Mid E s cur done V previous acc) {e : Edge} (he : e ∈ edgesOf V cur) :
    HasEdge E cur e.destination e.weight := by
  have hlen : V.length = E.length := by
    have := congrArg List.length hmid.adj_eq
    simpa [adjacency] using this
  have := hasEdge_of_mem (hlen ▸ hmid.cur_valid) he
  rw [hmid.adj_eq] at this
  exact this

theorem reachable_step {E : List (List Edge)} {s u v w : Int} (hu : Reachable E s u)
    (he : HasEdge E u v w) : Reachable E s v := by
  obtain ⟨vs, c, hp⟩ := hu
  exact ⟨u :: vs, c + w, DPath.cons hp he⟩

/-- Relaxing one edge of the current vertex keeps the invariant. -/
theorem relax_mid {E : List (List Edge)} {s cur : Int} {done : List Edge}
    {V : List Vertex} {previous : List Int} {acc : List Int × List QueueElement}
    (hE : ValidEdges E) (hmid : Mid E s cur done V previous acc) {e : Edge}
    (he : e ∈ edgesOf V cur) :
    Mid E s cur (e :: done) V previous (relaxEdge V cur acc e) := by
  have hedge := cur_edge hmid he
  have hnb : ValidVertex E.length e.destination := (hasEdge_valid hE hedge).2
  rcases relaxEdge_cases V cur acc e with ⟨heq, hwhy⟩ | ⟨hv, hlt, heq⟩
  · rw [heq]
    refine ⟨hmid.adj_eq, hmid.dist_len, hmid.prev_len, hmid.src_valid, hmid.src_visited,
      hmid.src_dist, hmid.src_prev, hmid.cur_valid, hmid.cur_visited, hmid.queue_ok,
      hmid.visited_reach, hmid.dist_reach, hmid.prev_none, hmid.chain, fun hgood => ?_⟩
    have F := hmid.full hgood
    refine ⟨F.sorted, F.key_ok, F.path_cost, F.visited_finite, F.optimal, F.front_old, ?_,
      F.pending, F.pred_ok⟩
    intro e' he'
    rcases List.mem_cons.1 he' with rfl | he'
    · rcases hwhy with h | h
      · exact Or.inl h
      · by_cases hv : isVisited V e'.destination = true
        · exact Or.inl hv
        · right
          have hb := extend_bound hgood F hmid.cur_valid hmid.cur_visited hedge
            (by simpa using hv)
          rw [wrapInt_eq (by omega) (by unfold INT_MAX at hb; omega)] at h
          exact h
    · exact F.front_cur e' he'
  · rw [heq]
    have hnbs : e.destination.toNat ≠ s.toNat := toNat_ne_of_visited hmid.src_visited hv
    have hsame : ∀ u, isVisited V u = true →
        getI (setI acc.1 e.destination (wrapInt (getI acc.1 cur + e.weight))) u
          = getI acc.1 u :=
      fun u hu => getI_setI_other _ (toNat_ne_of_visited hu hv)
    have hle : ∀ u, getI (setI acc.1 e.destination (wrapInt (getI acc.1 cur + e.weight))) u
        ≤ getI acc.1 u := getI_setI_le (le_of_lt hlt)
    have hnew : getI (setI acc.1 e.destination (wrapInt (getI acc.1 cur + e.weight)))
        e.destination = wrapInt (getI acc.1 cur + e.weight) :=
      getI_setI_eq _ (by rw [hmid.dist_len]; exact valid_toNat_lt hnb)
    have hother : ∀ v, ValidVertex E.length v → v ≠ e.destination →
        getI (setI acc.1 e.destination (wrapInt (getI acc.1 cur + e.weight))) v
          = getI acc.1 v :=
      fun v hv' hne => getI_setI_ne _ hv'.1 hnb.1 hne
    refine ⟨hmid.adj_eq, (length_setI _ _ _).trans hmid.dist_len, hmid.prev_len,
      hmid.src_valid, hmid.src_visited, (hsame s hmid.src_visited).trans hmid.src_dist,
      hmid.src_prev, hmid.cur_valid, hmid.cur_visited, ?_, hmid.visited_reach, ?_,
      hmid.prev_none, hmid.chain, fun hgood => ?_⟩
    · intro k v p hmem
      rcases mem_pqInsert.1 hmem with hx | hx
      · simp only [Prod.mk.injEq] at hx
        obtain ⟨_, rfl, rfl⟩ := hx
        exact ⟨hnb, hmid.cur_valid, hmid.cur_visited, e.weight, hedge⟩
      · exact hmid.queue_ok k v p hx
    · intro v hv' hfin
      by_cases hvn : v = e.destination
      · subst hvn
        exact reachable_step (hmid.visited_reach cur hmid.cur_valid hmid.cur_visited) hedge
      · rw [hother v hv' hvn] at hfin
        exact hmid.dist_reach v hv' hfin
    · have F := hmid.full hgood
      obtain ⟨hb0, hb1, vs, hb2, hb3, hb4⟩ :=
        extend_bound hgood F hmid.cur_valid hmid.cur_visited hedge hv
      have hwrap : wrapInt (getI acc.1 cur + e.weight) = getI acc.1 cur + e.weight :=
        wrapInt_eq (by omega) (by unfold INT_MAX at hb1; omega)
      refine ⟨sorted_pqInsert _ F.sorted, ?_, ?_, ?_, ?_, ?_, ?_, ?_, ?_⟩
      · intro k v p hmem
        rcases mem_pqInsert.1 hmem with hx | hx
        · simp only [Prod.mk.injEq] at hx
          obtain ⟨rfl, rfl, rfl⟩ := hx
          refine ⟨by rw [hnew], by rw [hwrap]; exact hb1, e.weight, hedge, ?_⟩
          rw [hsame p hmid.cur_visited, hwrap]
        · obtain ⟨h1, h2, w, h3, h4⟩ := F.key_ok k v p hx
          refine ⟨le_trans (hle v) h1, h2, w, h3, ?_⟩
          rw [hsame p (hmid.queue_ok k v p hx).2.2.1]
          exact h4
      · intro v hv' hfin
        by_cases hvn : v = e.destination
        · subst hvn
          rw [hnew, hwrap]
          exact ⟨vs, hb2, hb3, hb4⟩
        · rw [hother v hv' hvn] at hfin ⊢
          exact F.path_cost v hv' hfin
      · intro u hu huv
        rw [hsame u huv]
        exact F.visited_finite u hu huv
      · intro u hu huv
        rw [hsame u huv]
        exact F.optimal u hu huv
      · intro u hu huv hne v w hed
        rw [hsame u huv]
        rcases F.front_old u hu huv hne v w hed with h | h
        · exact Or.inl h
        · exact Or.inr (le_trans (hle v) h)
      · intro e' he'
        rw [hsame cur hmid.cur_visited]
        rcases List.mem_cons.1 he' with rfl | he'
        · right
          rw [hnew, hwrap]
        · rcases F.front_cur e' he' with h | h
          · exact Or.inl h
          · exact Or.inr (le_trans (hle _) h)
      · intro v hv' hvis hfin
        by_cases hvn : v = e.destination
        · subst hvn
          exact ⟨cur, mem_pqInsert.2 (Or.inl (by rw [hnew]))⟩
        · rw [hother v hv' hvn] at hfin ⊢
          obtain ⟨p, hp⟩ := F.pending v hv' hvis hfin
          exact ⟨p, mem_pqInsert.2 (Or.inr hp)⟩
      · intro v hv' hvis hne
        obtain ⟨_, hpv⟩ := prev_visited hmid hv' hvis hne
        rw [hsame v hvis, hsame _ hpv]
        exact F.pred_ok v hv' hvis hne

theorem relax_fold {E : List (List Edge)} {s cur : Int} {V : List Vertex}
    {previous : List Int} (hE : ValidEdges E) :
    ∀ (es done : List Edge) (acc : List Int × List QueueElement),
      (∀ e ∈ es, e ∈ edgesOf V cur) → Mid E s cur done V previous acc →
      Mid E s cur (es.reverse ++ done) V previous (es.foldl (relaxEdge V cur) acc)
  | [], done, acc, _, h => by simpa using h
  | e :: es, done, acc, hes, h => by
    have h1 := relax_mid hE h (hes e (List.mem_cons_self _ _))
    have h2 := relax_fold hE es (e :: done) _
      (fun x hx => hes x (List.mem_cons_of_mem _ hx)) h1
    simpa using h2

theorem mid_length {E : List (List Edge)} {s cur : Int} {done : List Edge}
    {V : List Vertex} {previous : List Int} {acc : List Int × List QueueElement}
    (hmid : Mid E s cur done V previous acc) : V.length = E.length := by
  have := congrArg List.length hmid.adj_eq
  simpa [adjacency] using this

/-- Between two iterations, every path from the source to an unvisited vertex is matched by
a queue element with an unvisited vertex whose key is at most the cost of the path. -/
theorem queue_front {E : List (List Edge)} {s cur : Int} {done : List Edge}
    {V : List Vertex} {previous : List Int} {acc : List Int × List QueueElement}
    (hE : ValidEdges E) (hgood : Good E s) (hmid : Mid E s cur done V previous acc)
    (hall : ∀ e ∈ edgesOf V cur, e ∈ done) {l : List Int} {c : Int} (hp : DPath E s l c) :
    ∀ v vs, l = v :: vs → isVisited V v = false →
      ∃ k x p, (k, (x, p)) ∈ acc.2 ∧ isVisited V x = false ∧ k ≤ c := by
  have F := hmid.full hgood
  induction hp with
  | single =>
    intro v vs heq hv
    simp only [List.cons.injEq] at heq
    rw [← heq.1, hmid.src_visited] at hv
    cases hv
  | @cons u v' w vs' c hp he ih =>
    intro v vs heq hv
    simp only [List.cons.injEq] at heq
    obtain ⟨rfl, _⟩ := heq
    have hw := hasEdge_nonneg hgood.1 he
    by_cases hu : isVisited V u = true
    · have huv := (hasEdge_valid hE he).1
      have hvv := (hasEdge_valid hE he).2
      have hb := extend_bound hgood F huv hu he hv
      have hopt := F.optimal u huv hu vs' c hp
      have hfront : getI acc.1 v' ≤ getI acc.1 u + w := by
        by_cases hcur : u = cur
        · subst hcur
          have hmem := hall _ (mem_of_hasEdge (hmid.adj_eq ▸ he))
          rcases F.front_cur _ hmem with h | h
          · simp only at h
            rw [hv] at h
            cases h
          · exact h
        · rcases F.front_old u huv hu hcur v' w he with h | h
          · rw [hv] at h
            cases h
          · exact h
      obtain ⟨p, hp'⟩ := F.pending v' hvv hv (by omega)
      exact ⟨_, v', p, hp', hv, by omega⟩
    · obtain ⟨k, x, p, h1, h2, h3⟩ := ih u vs' rfl (by simpa using hu)
      exact ⟨k, x, p, h1, h2, by omega⟩

theorem chain_congr {previous previous' : List Int} {s : Int} {ch : List Int}
    (hsame : ∀ u ∈ ch, getI previous' u = getI previous u)
    (h : IsPrevChain previous s ch) : IsPrevChain previous' s ch := by
  obtain ⟨h1, h2, h3⟩ := h
  refine ⟨?_, h2, h3⟩
  have h4 := List.Chain'.iff_mem.1 h1
  exact h4.imp (fun a b hab => (hsame a hab.1).trans hab.2.2)

/-- Popping an element with an unvisited vertex, marking the vertex visited and recording
its predecessor establishes the invariant of the relaxation of the popped vertex. -/
theorem pop_mid {E : List (List Edge)} {s cur : Int} {done : List Edge}
    {V : List Vertex} {previous dist : List Int} {pq rest : List QueueElement}
    {k c p : Int} (hE : ValidEdges E) (hmid : Mid E s cur done V previous (dist, pq))
    (hall : ∀ e ∈ edgesOf V cur, e ∈ done)
    (hpop : popFresh V pq = some ((k, (c, p)), rest)) :
    Mid E s c [] (markVisited V c) (setI previous c p) (dist, rest) := by
  obtain ⟨pre, hpq, hpre, hc⟩ := popFresh_some hpop
  simp only at hc
  have hmem : (k, (c, p)) ∈ pq := by rw [hpq]; simp
  have hsub : ∀ x ∈ rest, x ∈ pq := by
    intro x hx; rw [hpq]; simp [hx]
  obtain ⟨hcv, hpv, hpvis, w, hedge⟩ := hmid.queue_ok k c p hmem
  have hlen := mid_length hmid
  have hclt : c.toNat < V.length := by rw [hlen]; exact valid_toNat_lt hcv
  have hmono : ∀ u, isVisited V u = true → isVisited (markVisited V c) u = true :=
    fun u hu => isVisited_mark_mono c hu
  have hold : ∀ u, ValidVertex E.length u → u ≠ c →
      isVisited (markVisited V c) u = isVisited V u :=
    fun u hu hne => isVisited_mark_ne hu.1 hcv.1 hne
  have hprev : ∀ u, isVisited V u = true → getI (setI previous c p) u = getI previous u :=
    fun u hu => getI_setI_other _ (toNat_ne_of_visited hu hc)
  have hprevc : getI (setI previous c p) c = p :=
    getI_setI_eq _ (by rw [hmid.prev_len]; exact valid_toNat_lt hcv)
  have hback : ∀ u, ValidVertex E.length u → isVisited (markVisited V c) u = true →
      u = c ∨ isVisited V u = true := by
    intro u hu huv
    by_cases huc : u = c
    · exact Or.inl huc
    · rw [hold u hu huc] at huv
      exact Or.inr huv
  refine ⟨(adjacency_mark V c).trans hmid.adj_eq, hmid.dist_len,
    (length_setI _ _ _).trans hmid.prev_len, hmid.src_valid, hmono s hmid.src_visited,
    hmid.src_dist, (hprev s hmid.src_visited).trans hmid.src_prev, hcv,
    isVisited_mark_self hclt, ?_, ?_, hmid.dist_reach, ?_, ?_, fun hgood => ?_⟩
  · intro k' v' p' hx
    obtain ⟨h1, h2, h3, h4⟩ := hmid.queue_ok k' v' p' (hsub _ hx)
    exact ⟨h1, h2, hmono p' h3, h4⟩
  · intro v hv hvis
    rcases hback v hv hvis with rfl | h
    · exact reachable_step (hmid.visited_reach p hpv hpvis) hedge
    · exact hmid.visited_reach v hv h
  · intro v hv hvis
    have hne : v ≠ c := by
      rintro rfl
      rw [isVisited_mark_self hclt] at hvis
      cases hvis
    rw [hold v hv hne] at hvis
    rw [getI_setI_ne _ hv.1 hcv.1 hne]
    exact hmid.prev_none v hv hvis
  · intro v hv hvis
    have hlift : ∀ u, ValidVertex E.length u → isVisited V u = true →
        ∃ ch, ch.head? = some u ∧ IsPrevChain (setI previous c p) s ch ∧
          (∀ x ∈ ch, ValidVertex E.length x ∧ isVisited (markVisited V c) x = true) ∧
          ∀ x ∈ ch, isVisited V x = true := by
      intro u hu huv
      obtain ⟨ch, h1, h2, h3⟩ := hmid.chain u hu huv
      exact ⟨ch, h1, chain_congr (fun x hx => hprev x (h3 x hx).2) h2,
        fun x hx => ⟨(h3 x hx).1, hmono x (h3 x hx).2⟩, fun x hx => (h3 x hx).2⟩
    rcases hback v hv hvis with rfl | h
    · obtain ⟨ch, h1, ⟨h2, h3, h4⟩, h5, h6⟩ := hlift p hpv hpvis
      refine ⟨v :: ch, rfl, ⟨?_, ?_, ?_⟩, ?_⟩
      · rw [List.chain'_cons']
        refine ⟨?_, h2⟩
        intro y hy
        rw [h1] at hy
        simp only [Option.mem_def, Option.some.injEq] at hy
        rw [← hy]
        exact hprevc
      · cases ch with
        | nil => simp at h1
        | cons a t => rw [List.getLast?_cons_cons]; exact h3
      · rw [List.nodup_cons]
        refine ⟨?_, h4⟩
        intro hin
        have := h6 v hin
        rw [hc] at this
        cases this
      · intro x hx
        rcases List.mem_cons.1 hx with rfl | hx
        · exact ⟨hcv, isVisited_mark_self hclt⟩
        · exact h5 x hx
    · obtain ⟨ch, h1, h2, h5, _⟩ := hlift v hv h
      exact ⟨ch, h1, h2, h5⟩
  · have F := hmid.full hgood
    have hsorted : pq.Pairwise (fun a b => a.1 ≤ b.1) := F.sorted
    have hkey := F.key_ok k c p hmem
    have hmin : ∀ x ∈ pq, isVisited V x.2.1 = false → k ≤ x.1 := by
      intro x hx hxv
      rw [hpq, List.mem_append] at hx
      rcases hx with hx | hx
      · rw [hpre x hx] at hxv
        cases hxv
      · rcases List.mem_cons.1 hx with rfl | hx
        · exact le_refl _
        · rw [hpq, List.pairwise_append] at hsorted
          exact (List.pairwise_cons.1 hsorted.2.1).1 x hx
    have hfin : getI dist c ≠ INT_MAX := by
      have := hkey.1
      have := hkey.2.1
      simp only at *
      omega
    refine ⟨?_, ?_, ?_, ?_, ?_, ?_, ?_, ?_, ?_⟩
    · rw [hpq, List.pairwise_append] at hsorted
      exact (List.pairwise_cons.1 hsorted.2.1).2
    · intro k' v' p' hx
      exact F.key_ok k' v' p' (hsub _ hx)
    · intro v hv hfinv
      obtain ⟨vs, h1, h2, h3⟩ := F.path_cost v hv hfinv
      exact ⟨vs, h1, h2, fun u hu => hmono u (h3 u hu)⟩
    · intro u hu huv
      rcases hback u hu huv with rfl | h
      · exact hfin
      · exact F.visited_finite u hu h
    · intro u hu huv vs c0 hpath
      rcases hback u hu huv with rfl | h
      · obtain ⟨k', x, p', h1, h2, h3⟩ := queue_front hE hgood hmid hall hpath u vs rfl hc
        have := hmin _ h1 h2
        have := hkey.1
        simp only at *
        omega
      · exact F.optimal u hu h vs c0 hpath
    · intro u hu huv hne v w' hed
      have huold : isVisited V u = true := by
        rcases hback u hu huv with h | h
        · exact absurd h hne
        · exact h
      have hres : isVisited V v = true ∨ getI dist v ≤ getI dist u + w' := by
        by_cases hcur : u = cur
        · subst hcur
          exact F.front_cur _ (hall _ (mem_of_hasEdge (hmid.adj_eq ▸ hed)))
        · exact F.front_old u hu huold hcur v w' hed
      rcases hres with h | h
      · exact Or.inl (hmono v h)
      · exact Or.inr h
    · intro e he
      simp at he
    · intro v hv hvis hfinv
      have hne : v ≠ c := by
        rintro rfl
        rw [isVisited_mark_self hclt] at hvis
        cases hvis
      rw [hold v hv hne] at hvis
      obtain ⟨p', hp'⟩ := F.pending v hv hvis hfinv
      refine ⟨p', ?_⟩
      rw [hpq, List.mem_append] at hp'
      rcases hp' with hx | hx
      · have := hpre _ hx
        simp only at this
        rw [hvis] at this
        cases this
      · rcases List.mem_cons.1 hx with hx | hx
        · simp only [Prod.mk.injEq] at hx
          exact absurd hx.2.1 hne
        · exact hx
    · intro v hv hvis hne
      rcases hback v hv hvis with rfl | h
      · rw [hprevc]
        obtain ⟨h1, _, w', h3, h4⟩ := hkey
        obtain ⟨p', hp'⟩ := F.pending v hv hc hfin
        have := hmin _ hp' hc
        simp only at *
        exact ⟨w', h3, by omega⟩
      · obtain ⟨_, hpvis'⟩ := prev_visited hmid hv h hne
        rw [hprev v h]
        exact F.pred_ok v hv h hne

/-- One iteration of the `for` loop that pops an unvisited vertex keeps the invariant. -/
theorem visit_inv {E : List (List Edge)} {s : Int} {st : State} {e : QueueElement}
    {rest : List QueueElement} (hE : ValidEdges E) (hinv : Inv E s st)
    (hpop : popFresh st.vertices st.pq = some (e, rest)) : Inv E s (visit st e rest) := by
  obtain ⟨cur, done, hmid, hall⟩ := hinv
  obtain ⟨k, c, p⟩ := e
  have h1 := pop_mid hE hmid hall hpop
  have h2 := relax_fold hE (edgesOf (markVisited st.vertices c) c) [] _ (fun _ h => h) h1
  exact ⟨c, _, h2, fun x hx => by simpa using hx⟩

theorem countP_set_visited : ∀ (V : List Vertex) (i : Nat) (x : Vertex),
    V[i]? = some x → x.visited = false →
    (V.set i (x.setVisited true)).countP (fun y => y.visited)
      = V.countP (fun y => y.visited) + 1
  | [], i, x, h, _ => by simp at h
  | a :: V, 0, x, h, hx => by
    simp only [List.getElem?_cons_zero, Option.some.injEq] at h
    subst h
    simp [List.countP_cons, Vertex.setVisited, hx]
  | a :: V, i + 1, x, h, hx => by
    simp only [List.getElem?_cons_succ] at h
    have ih := countP_set_visited V i x h hx
    simp only [List.set_cons_succ, List.countP_cons, ih]
    omega

theorem visitedCount_mark {V : List Vertex} {v : Int} (hlt : v.toNat < V.length)
    (hv : isVisited V v = false) : visitedCount (markVisited V v) = visitedCount V + 1 := by
  unfold isVisited at hv
  unfold markVisited visitedCount
  rw [List.getElem?_eq_getElem hlt] at hv ⊢
  exact countP_set_visited V v.toNat _ (List.getElem?_eq_getElem hlt) hv

theorem visited_of_count {V : List Vertex} (h : visitedCount V = V.length) {v : Int}
    (hlt : v.toNat < V.length) : isVisited V v = true := by
  unfold visitedCount at h
  rw [List.countP_eq_length] at h
  unfold isVisited
  rw [List.getElem?_eq_getElem hlt]
  exact h _ (List.getElem_mem hlt)

theorem reachable_valid {E : List (List Edge)} {s v : Int} (hE : ValidEdges E)
    (hs : ValidVertex E.length s) (h : Reachable E s v) : ValidVertex E.length v := by
  obtain ⟨vs, c, hp⟩ := h
  exact dpath_valid hE hs hp v (List.mem_cons_self _ _)

/-- The state when the `for` loop ends: the invariant holds for some contents of the queue,
and under the preconditions every reachable vertex is visited. -/
theorem loop_post {E : List (List Edge)} {s : Int} (hE : ValidEdges E) :
    ∀ (n : Nat) (st : State), Inv E s st → visitedCount st.vertices + n = E.length →
      ∃ cur done pq,
        Mid E s cur done (dijkstraLoop n st).vertices (dijkstraLoop n st).previous
          ((dijkstraLoop n st).distances, pq) ∧
        (Good E s → ∀ v, Reachable E s v → isVisited (dijkstraLoop n st).vertices v = true)
  | 0, st, hinv, hcount => by
    obtain ⟨cur, done, hmid, _⟩ := hinv
    refine ⟨cur, done, st.pq, hmid, fun _ v hv => ?_⟩
    have hlen := mid_length hmid
    have hvalid := reachable_valid hE hmid.src_valid hv
    exact visited_of_count (by simp only [dijkstraLoop]; omega)
      (by simp only [dijkstraLoop]; rw [hlen]; exact valid_toNat_lt hvalid)
  | n + 1, st, hinv, hcount => by
    unfold dijkstraLoop
    cases hpop : popFresh st.vertices st.pq with
    | none =>
      obtain ⟨cur, done, hmid, hall⟩ := hinv
      refine ⟨cur, done, st.pq, hmid, fun hgood v hv => ?_⟩
      by_contra hnot
      obtain ⟨vs, c, hp⟩ := hv
      obtain ⟨k, x, p, h1, h2, _⟩ :=
        queue_front hE hgood hmid hall hp v vs rfl (by simpa using hnot)
      have := popFresh_none hpop _ h1
      simp only at this h2
      rw [h2] at this
      cases this
    | some pr =>
      obtain ⟨e, rest⟩ := pr
      have hinv' := visit_inv hE hinv hpop
      obtain ⟨cur, done, hmid, _⟩ := hinv
      obtain ⟨pre, hpq, _, hc⟩ := popFresh_some hpop
      have hmem : e ∈ st.pq := by rw [hpq]; simp
      have hcv := (hmid.queue_ok e.1 e.2.1 e.2.2 hmem).1
      have hlen := mid_length hmid
      have hcnt : visitedCount (visit st e rest).vertices = visitedCount st.vertices + 1 :=
        visitedCount_mark (by rw [hlen]; exact valid_toNat_lt hcv) hc
      exact loop_post hE n (visit st e rest) hinv' (by omega)

theorem isVisited_reset (V : List Vertex) (v : Int) :
    isVisited (V.map Vertex.resetVisited) v = false := by
  unfold isVisited
  rw [List.getElem?_map]
  cases V[v.toNat]? <;> simp [Vertex.resetVisited]

theorem adjacency_reset (V : List Vertex) :
    adjacency (V.map Vertex.resetVisited) = adjacency V := by
  simp [adjacency, Vertex.resetVisited, Function.comp_def]

theorem visitedCount_reset (V : List Vertex) :
    visitedCount (V.map Vertex.resetVisited) = 0 := by
  unfold visitedCount
  rw [List.countP_eq_zero]
  intro a ha
  rw [List.mem_map] at ha
  obtain ⟨b, _, rfl⟩ := ha
  simp [Vertex.resetVisited]

theorem getI_replicate {n : Nat} {v : Int} (x : Int) (h : v.toNat < n) :
    getI (List.replicate n x) v = x := by
  simp [getI, List.getD_eq_getElem?_getD, List.getElem?_replicate, h]

theorem adj_length (g : Graph) : g.adj.length = g.getSize := by
  simp [Graph.adj, adjacency, Graph.getSize]

/-- The state after the first element `(0, (source, source))` is popped and the source is
marked visited satisfies the invariant of the relaxation of the source. -/
theorem init_mid (g : Graph) {s : Int} (hs : ValidVertex g.getSize s) :
    Mid g.adj s s [] (markVisited (g.vertices.map Vertex.resetVisited) s)
      (setI (List.replicate g.getSize (-1)) s s)
      (setI (List.replicate g.getSize INT_MAX) s 0, []) := by
  have hlen := adj_length g
  have hs' : ValidVertex g.adj.length s := by rw [hlen]; exact hs
  have hslt : s.toNat < g.getSize := valid_toNat_lt hs
  have hV : s.toNat < (g.vertices.map Vertex.resetVisited).length := by
    simpa [Graph.getSize] using hslt
  have hself : isVisited (markVisited (g.vertices.map Vertex.resetVisited) s) s = true :=
    isVisited_mark_self hV
  have hback : ∀ v, ValidVertex g.adj.length v →
      isVisited (markVisited (g.vertices.map Vertex.resetVisited) s) v = true → v = s := by
    intro v hv hvis
    by_contra hne
    rw [isVisited_mark_ne hv.1 hs.1 hne, isVisited_reset] at hvis
    cases hvis
  have hdist : ∀ v, ValidVertex g.adj.length v → v ≠ s →
      getI (setI (List.replicate g.getSize INT_MAX) s 0) v = INT_MAX := by
    intro v hv hne
    rw [getI_setI_ne _ hv.1 hs.1 hne]
    exact getI_replicate _ (by rw [← hlen]; exact valid_toNat_lt hv)
  have hdist0 : getI (setI (List.replicate g.getSize INT_MAX) s 0) s = 0 :=
    getI_setI_eq _ (by simpa using hslt)
  have hfin : ∀ v, ValidVertex g.adj.length v →
      getI (setI (List.replicate g.getSize INT_MAX) s 0) v ≠ INT_MAX → v = s := by
    intro v hv hne
    by_contra hvs
    exact hne (hdist v hv hvs)
  refine ⟨?_, ?_, ?_, hs', hself, hdist0, ?_, hs', hself, ?_, ?_, ?_, ?_, ?_, fun hgood => ?_⟩
  · rw [adjacency_mark, adjacency_reset]
    rfl
  · simp [length_setI, hlen]
  · simp [length_setI, hlen]
  · exact getI_setI_eq _ (by simpa using hslt)
  · intro k v p h
    simp at h
  · intro v hv hvis
    rw [hback v hv hvis]
    exact ⟨[], 0, DPath.single⟩
  · intro v hv hne
    rw [hfin v hv hne]
    exact ⟨[], 0, DPath.single⟩
  · intro v hv hvis
    have hne : v ≠ s := by
      rintro rfl
      rw [hself] at hvis
      cases hvis
    rw [getI_setI_ne _ hv.1 hs.1 hne]
    exact getI_replicate _ (by rw [← hlen]; exact valid_toNat_lt hv)
  · intro v hv hvis
    rw [hback v hv hvis]
    refine ⟨[s], rfl, ⟨by simp, rfl, by simp⟩, ?_⟩
    intro u hu
    rw [List.mem_singleton] at hu
    rw [hu]
    exact ⟨hs', hself⟩
  · refine ⟨by simp, ?_, ?_, ?_, ?_, ?_, ?_, ?_, ?_⟩
    · intro k v p h
      simp at h
    · intro v hv hne
      rw [hfin v hv hne, hdist0]
      exact ⟨[], DPath.single, by simp, by simp⟩
    · intro u hu hvis
      rw [hback u hu hvis, hdist0]
      decide
    · intro u hu hvis vs c hp
      rw [hback u hu hvis, hdist0]
      exact dpath_nonneg hgood.1 hp
    · intro u hu hvis hne
      exact absurd (hback u hu hvis) hne
    · intro e he
      simp at he
    · intro v hv hvis hne
      rw [hfin v hv hne, hself] at hvis
      cases hvis
    · intro v hv hvis hne
      exact absurd (hback v hv hvis) hne

/-- What holds when `Graph::dijkstra` returns: the invariant (for some contents of the
queue), and, under the preconditions, that every reachable vertex is visited. -/
theorem dijkstra_post (g : Graph) {s : Int} (hE : ValidEdges g.adj)
    (hs : ValidVertex g.getSize s) :
    ∃ cur done pq,
      Mid g.adj s cur done (g.dijkstra s).2.vertices (g.dijkstra s).1.previousVertices
        ((g.dijkstra s).1.distances, pq) ∧
      (Good g.adj s → ∀ v, Reachable g.adj s v →
        isVisited (g.dijkstra s).2.vertices v = true) := by
  obtain ⟨n, hn⟩ : ∃ n, g.getSize = n + 1 := by
    have := valid_toNat_lt hs
    exact ⟨g.getSize - 1, by omega⟩
  have hmid0 := init_mid g hs
  have hfold := relax_fold hE
    (edgesOf (markVisited (g.vertices.map Vertex.resetVisited) s) s) [] _ (fun _ h => h) hmid0
  have hinv : Inv g.adj s (visit (initState g s) (0, (s, s)) []) :=
    ⟨s, _, hfold, fun x hx => by simpa using hx⟩
  have hV : s.toNat < (g.vertices.map Vertex.resetVisited).length := by
    simpa [Graph.getSize] using valid_toNat_lt hs
  have hcount : visitedCount (visit (initState g s) (0, (s, s)) []).vertices + n
      = g.adj.length := by
    have h1 : visitedCount (markVisited (g.vertices.map Vertex.resetVisited) s)
        = visitedCount (g.vertices.map Vertex.resetVisited) + 1 :=
      visitedCount_mark hV (isVisited_reset _ _)
    rw [visitedCount_reset] at h1
    rw [adj_length, hn]
    simp only [visit, initState, Graph.resetVisited]
    omega
  have hstep : dijkstraLoop g.getSize (initState g s)
      = dijkstraLoop n (visit (initState g s) (0, (s, s)) []) := by
    rw [hn]
    have hpop : popFresh (initState g s).vertices (initState g s).pq
        = some ((0, (s, s)), []) := by
      simp [initState, popFresh, Graph.resetVisited, isVisited_reset]
    rw [dijkstraLoop, hpop]
  have hpost := loop_post hE n _ hinv hcount
  simp only [Graph.dijkstra, hstep]
  exact hpost

theorem getElem?_of_getI {l : List Int} {v : Int} (h : v.toNat < l.length) :
    l[v.toNat]? = some (getI l v) := by
  simp [getI, List.getD_eq_getElem?_getD, List.getElem?_eq_getElem h]

theorem nodup_length_le {n : Nat} {vs : List Int} (hnd : vs.Nodup)
    (hv : ∀ v ∈ vs, ValidVertex n v) : vs.length ≤ n := by
  have h1 : (vs.map Int.toNat).Nodup := by
    apply List.Nodup.map_on _ hnd
    intro x hx y hy hxy
    have := (hv x hx).1
    have := (hv y hy).1
    omega
  have h2 : vs.map Int.toNat ⊆ List.range n := by
    intro a ha
    rw [List.mem_map] at ha
    obtain ⟨b, hb, rfl⟩ := ha
    rw [List.mem_range]
    exact valid_toNat_lt (hv b hb)
  have := (List.subperm_of_subset h1 h2).length_le
  simpa using this

theorem dpath_cost_le {E : List (List Edge)} {s : Int} {W : Int}
    (hW : ∀ es ∈ E, ∀ e ∈ es, e.weight ≤ W) {vs : List Int} {c : Int}
    (h : DPath E s vs c) : c ≤ W * ((vs.length : Int) - 1) := by
  induction h with
  | single => simp
  | cons _ he ih =>
    obtain ⟨_, es, h1, h2⟩ := he
    have := hW es (List.getElem?_mem h1) _ h2
    simp only [List.length_cons] at *
    push_cast at *
    nlinarith

/-- In a graph whose weights are at most `W`, with `W * (n - 1)` below `INT_MAX`, every path
without repetition costs less than `INT_MAX`. -/
theorem boundedPaths_of_weights {E : List (List Edge)} {s : Int} {W : Int}
    (hE : ValidEdges E) (hs : ValidVertex E.length s) (hW0 : 0 ≤ W)
    (hW : ∀ es ∈ E, ∀ e ∈ es, e.weight ≤ W)
    (hbound : W * ((E.length : Int) - 1) < INT_MAX) : BoundedPaths E s := by
  intro vs c hp hnd
  have h1 := dpath_cost_le hW hp
  have h2 := nodup_length_le hnd (dpath_valid hE hs hp)
  have h3 : W * ((vs.length : Int) - 1) ≤ W * ((E.length : Int) - 1) := by
    apply mul_le_mul_of_nonneg_left _ hW0
    omega
  omega

theorem exampleGraph_bounded : BoundedPaths exampleGraph.adj 0 :=
  boundedPaths_of_weights (W := 5) (by decide) (by decide) (by decide) (by decide) (by decide)

/-! ### Specified properties of `Graph::dijkstra` -/

/-- C7: for a graph with valid edge destinations, non-negative weights and every path cost
below `INT_MAX`, and a valid source, `dijkstra(source)` returns distances in which the
entry of every vertex reachable from the source is the minimum total weight of a directed
path from the source to it; on the documented 4-vertex graph with source 0 the distances
are 0, 1, 3, 4. -/
theorem dijkstra_distances_minimal :
    (∀ (g : Graph) (source : Int), ValidEdges g.adj → NonNegWeights g.adj →
      BoundedPaths g.adj source → ValidVertex g.getSize source →
      ∀ v, Reachable g.adj source v →
        ∃ d, (g.dijkstra source).1.distances[v.toNat]? = some d ∧
          IsMinCost g.adj source v d) ∧
    (exampleGraph.dijkstra 0).1.distances = [0, 1, 3, 4] := by
  refine ⟨?_, by decide⟩
  intro g source hE hW hB hs v hv
  obtain ⟨cur, done, pq, hmid, hreach⟩ := dijkstra_post g hE hs
  have hgood : Good g.adj source := ⟨hW, hB⟩
  have F := hmid.full hgood
  have hvalid := reachable_valid hE (by rw [adj_length]; exact hs) hv
  have hvis := hreach hgood v hv
  refine ⟨getI (g.dijkstra source).1.distances v,
    getElem?_of_getI (by rw [hmid.dist_len]; exact valid_toNat_lt hvalid), ?_, ?_⟩
  · obtain ⟨vs, h1, _⟩ := F.path_cost v hvalid (F.visited_finite v hvalid hvis)
    exact ⟨vs, h1⟩
  · exact F.optimal v hvalid hvis

/-- C7 at the documented graph, source 0 and vertex 3. -/
theorem dijkstra_distances_minimal_witness :
    ∃ d, (exampleGraph.dijkstra 0).1.distances[(3 : Int).toNat]? = some d ∧
      IsMinCost exampleGraph.adj 0 3 d :=
  dijkstra_distances_minimal.1 exampleGraph 0 (by decide) (by decide) exampleGraph_bounded
    (by decide) 3
    ⟨_, _, DPath.cons (DPath.cons DPath.single
      (show HasEdge exampleGraph.adj 0 2 5 from ⟨by decide, _, rfl, by decide⟩))
      (show HasEdge exampleGraph.adj 2 3 1 from ⟨by decide, _, rfl, by decide⟩)⟩

/-- C8: for a graph with valid edge destinations and non-negative weights and a valid
source, every vertex that is not reachable from the source has distance `INT_MAX` and
predecessor `-1` in the result of `dijkstra(source)`, whichever way the loop ends. -/
theorem dijkstra_unreachable_sentinel (g : Graph) (source : Int) (hE : ValidEdges g.adj)
    (_hW : NonNegWeights g.adj) (hs : ValidVertex g.getSize source) (v : Int)
    (hv : ValidVertex g.getSize v) (hun : ¬ Reachable g.adj source v) :
    (g.dijkstra source).1.distances[v.toNat]? = some INT_MAX ∧
    (g.dijkstra source).1.previousVertices[v.toNat]? = some (-1) := by
  obtain ⟨cur, done, pq, hmid, _⟩ := dijkstra_post g hE hs
  have hvalid : ValidVertex g.adj.length v := by rw [adj_length]; exact hv
  have hd : getI (g.dijkstra source).1.distances v = INT_MAX := by
    by_contra hne
    exact hun (hmid.dist_reach v hvalid hne)
  have hnv : isVisited (g.dijkstra source).2.vertices v = false := by
    by_contra hvis
    exact hun (hmid.visited_reach v hvalid (by simpa using hvis))
  have hp := hmid.prev_none v hvalid hnv
  constructor
  · rw [getElem?_of_getI (by rw [hmid.dist_len]; exact valid_toNat_lt hvalid)]
    exact congrArg some hd
  · rw [getElem?_of_getI (by rw [hmid.prev_len]; exact valid_toNat_lt hvalid), hp]

/-- In the documented graph no edge enters vertex 0, so vertex 0 is unreachable from 3. -/
theorem exampleGraph_unreachable : ¬ Reachable exampleGraph.adj 3 0 := by
  rintro ⟨vs, c, hp⟩
  cases hp with
  | cons _ he =>
    obtain ⟨_, es, h1, h2⟩ := he
    have hno : ∀ es ∈ exampleGraph.adj, ∀ e ∈ es, e.destination ≠ 0 := by decide
    exact hno es (List.getElem?_mem h1) _ h2 rfl

/-- C8 at the documented graph, source 3 and vertex 0. -/
theorem dijkstra_unreachable_sentinel_witness :
    (exampleGraph.dijkstra 3).1.distances[(0 : Int).toNat]? = some INT_MAX ∧
    (exampleGraph.dijkstra 3).1.previousVertices[(0 : Int).toNat]? = some (-1) :=
  dijkstra_unreachable_sentinel exampleGraph 3 (by decide) (by decide) (by decide) 0
    (by decide) exampleGraph_unreachable

/-- C9, counterexample: the graph with the single edge 0→1 of weight `INT_MAX` has valid
edge destinations and non-negative weights, and vertex 1 is reachable from the valid source
0; `dijkstra(0)` leaves `previousVertices[1] = -1` and vertex 1 unvisited, so following
`previousVertices` from vertex 1 does not lead to the source through finalized vertices. -/
theorem dijkstra_heavy_edge_no_chain :
    ValidEdges heavyGraph.adj ∧ NonNegWeights heavyGraph.adj ∧
    ValidVertex heavyGraph.getSize 0 ∧ Reachable heavyGraph.adj 0 1 ∧
    (heavyGraph.dijkstra 0).1 =
      { distances := [0, 2147483647], previousVertices := [0, -1] } ∧
    isVisited (heavyGraph.dijkstra 0).2.vertices 1 = false ∧
    ¬ FollowsToSource (heavyGraph.dijkstra 0).1.previousVertices
        (heavyGraph.dijkstra 0).2.vertices 0 1 := by
  refine ⟨by decide, by decide, by decide, ?_, by decide, by decide, ?_⟩
  · exact ⟨_, _, DPath.cons DPath.single
      (show HasEdge heavyGraph.adj 0 1 2147483647 from ⟨by decide, _, rfl, by decide⟩)⟩
  · rintro ⟨ch, h1, _, h3⟩
    have hmem : (1 : Int) ∈ ch := by
      cases ch with
      | nil => simp at h1
      | cons a t =>
        simp only [List.head?_cons, Option.some.injEq] at h1
        rw [h1]
        exact List.mem_cons_self _ _
    have hvis := (h3 1 hmem).2
    have hnot : isVisited (heavyGraph.dijkstra 0).2.vertices 1 = false := by decide
    rw [hnot] at hvis
    cases hvis

/-- C9, amended: for a graph with valid edge destinations, non-negative weights and every
path cost below `INT_MAX`, a valid source and a vertex `v` reachable from it, following
`previousVertices` from `v` visits only finalized (visited) vertices and reaches the source
after finitely many steps without repeating a vertex. -/
theorem dijkstra_previous_chain (g : Graph) (source : Int) (hE : ValidEdges g.adj)
    (hW : NonNegWeights g.adj) (hB : BoundedPaths g.adj source)
    (hs : ValidVertex g.getSize source) (v : Int) (hv : Reachable g.adj source v) :
    FollowsToSource (g.dijkstra source).1.previousVertices (g.dijkstra source).2.vertices
      source v := by
  obtain ⟨cur, done, pq, hmid, hreach⟩ := dijkstra_post g hE hs
  have hvalid := reachable_valid hE (by rw [adj_length]; exact hs) hv
  obtain ⟨ch, h1, h2, h3⟩ := hmid.chain v hvalid (hreach ⟨hW, hB⟩ v hv)
  refine ⟨ch, h1, h2, fun u hu => ?_⟩
  rw [mid_length hmid]
  exact h3 u hu

/-- C9, amended, at the documented graph, source 0 and vertex 3. -/
theorem dijkstra_previous_chain_witness :
    FollowsToSource (exampleGraph.dijkstra 0).1.previousVertices
      (exampleGraph.dijkstra 0).2.vertices 0 3 :=
  dijkstra_previous_chain exampleGraph 0 (by decide) (by decide) exampleGraph_bounded
    (by decide) 3
    ⟨_, _, DPath.cons (DPath.cons DPath.single
      (show HasEdge exampleGraph.adj 0 2 5 from ⟨by decide, _, rfl, by decide⟩))
      (show HasEdge exampleGraph.adj 2 3 1 from ⟨by decide, _, rfl, by decide⟩)⟩

/-- C10: for a graph with valid edge destinations and a valid source, the result of
`dijkstra(source)` has `distances[source] = 0` and `previousVertices[source] = source`; on
the documented graph with source 0 the predecessors are 0, 0, 1, 2. -/
theorem dijkstra_source_entry :
    (∀ (g : Graph) (source : Int), ValidEdges g.adj → ValidVertex g.getSize source →
      (g.dijkstra source).1.distances[source.toNat]? = some 0 ∧
      (g.dijkstra source).1.previousVertices[source.toNat]? = some source) ∧
    (exampleGraph.dijkstra 0).1.previousVertices = [0, 0, 1, 2] := by
  refine ⟨?_, by decide⟩
  intro g source hE hs
  obtain ⟨cur, done, pq, hmid, _⟩ := dijkstra_post g hE hs
  have hlt := valid_toNat_lt hmid.src_valid
  constructor
  · rw [getElem?_of_getI (by rw [hmid.dist_len]; exact hlt)]
    exact congrArg some hmid.src_dist
  · rw [getElem?_of_getI (by rw [hmid.prev_len]; exact hlt), hmid.src_prev]

/-- C10 at the documented graph and source 2. -/
theorem dijkstra_source_entry_witness :
    (exampleGraph.dijkstra 2).1.distances[(2 : Int).toNat]? = some 0 ∧
    (exampleGraph.dijkstra 2).1.previousVertices[(2 : Int).toNat]? = some 2 :=
  dijkstra_source_entry.1 exampleGraph 2 (by decide) (by decide)

/-! ### Independence of the visited flags on entry -/

theorem reset_eq_of_adjacency : ∀ {V W : List Vertex}, adjacency V = adjacency W →
    V.map Vertex.resetVisited = W.map Vertex.resetVisited
  | [], [], _ => rfl
  | [], _ :: _, h => by simp [adjacency] at h
  | _ :: _, [], h => by simp [adjacency] at h
  | a :: V, b :: W, h => by
    simp only [adjacency, List.map_cons, List.cons.injEq] at h
    have ih := reset_eq_of_adjacency (V := V) (W := W) h.2
    simp only [List.map_cons, List.cons.injEq]
    exact ⟨by simp [Vertex.resetVisited, h.1], ih⟩

theorem adjacency_visit (st : State) (e : QueueElement) (rest : List QueueElement) :
    adjacency (visit st e rest).vertices = adjacency st.vertices := by
  simp only [visit]
  exact adjacency_mark _ _

theorem adjacency_loop : ∀ (n : Nat) (st : State),
    adjacency (dijkstraLoop n st).vertices = adjacency st.vertices
  | 0, _ => rfl
  | n + 1, st => by
    unfold dijkstraLoop
    cases hpop : popFresh st.vertices st.pq with
    | none => rfl
    | some pr =>
      obtain ⟨e, rest⟩ := pr
      simp only
      rw [adjacency_loop n, adjacency_visit]

theorem initState_congr {g g' : Graph} (h : g.adj = g'.adj) (s : Int) :
    initState g s = initState g' s := by
  have hlen : g.getSize = g'.getSize := by
    have := congrArg List.length h
    simpa [Graph.adj, adjacency, Graph.getSize] using this
  simp only [initState, Graph.resetVisited, hlen]
  rw [reset_eq_of_adjacency h]

/-- C11: calling `dijkstra` twice in a row on the same graph with the same source yields
identical results: the result depends only on the edges and the source, not on the visited
flags on entry (in particular not on the flags left set by a previous call), because the
search resets the flags before it runs. -/
theorem dijkstra_twice_same (g : Graph) (source : Int) :
    ((g.dijkstra source).2.dijkstra source).1 = (g.dijkstra source).1 ∧
    (∀ g' : Graph, g'.adj = g.adj → (g'.dijkstra source).1 = (g.dijkstra source).1) ∧
    (g.dijkstra source).2.adj = g.adj := by
  have hgen : ∀ g' : Graph, g'.adj = g.adj →
      (g'.dijkstra source).1 = (g.dijkstra source).1 := by
    intro g' h
    have hlen : g'.getSize = g.getSize := by
      have := congrArg List.length h
      simpa [Graph.adj, adjacency, Graph.getSize] using this
    simp only [Graph.dijkstra, initState_congr h, hlen]
  have hadj : (g.dijkstra source).2.adj = g.adj := by
    simp only [Graph.dijkstra, Graph.adj]
    rw [adjacency_loop]
    simp only [initState, Graph.resetVisited]
    exact adjacency_reset _
  exact ⟨hgen _ hadj, hgen, hadj⟩

/-! ### The states of the loop -/

theorem init_pop (g : Graph) (s : Int) :
    popFresh (initState g s).vertices (initState g s).pq = some ((0, (s, s)), []) := by
  simp [initState, popFresh, Graph.resetVisited, isVisited_reset]

theorem init_visit_inv (g : Graph) {s : Int} (hE : ValidEdges g.adj)
    (hs : ValidVertex g.getSize s) : Inv g.adj s (visit (initState g s) (0, (s, s)) []) := by
  have hfold := relax_fold hE
    (edgesOf (markVisited (g.vertices.map Vertex.resetVisited) s) s) [] _ (fun _ h => h)
    (init_mid g hs)
  exact ⟨s, _, hfold, fun x hx => by simpa using hx⟩

theorem states_keep_inv {E : List (List Edge)} {s : Int} (hE : ValidEdges E) :
    ∀ (n : Nat) (st0 st : State), Inv E s st0 → dijkstraStates n st0 = some st → Inv E s st
  | 0, _, _, hinv, h => by
    simp only [dijkstraStates, Option.some.injEq] at h
    exact h ▸ hinv
  | n + 1, st0, st, hinv, h => by
    unfold dijkstraStates at h
    cases hpop : popFresh st0.vertices st0.pq with
    | none => rw [hpop] at h; cases h
    | some pr =>
      obtain ⟨e, rest⟩ := pr
      rw [hpop] at h
      exact states_keep_inv hE n _ st (visit_inv hE hinv hpop) h

/-- A state at the head of the loop is the initial state or satisfies the invariant. -/
theorem reached_cases (g : Graph) {s : Int} (hE : ValidEdges g.adj)
    (hs : ValidVertex g.getSize s) {n : Nat} {st : State}
    (h : dijkstraStates n (initState g s) = some st) :
    st = initState g s ∨ Inv g.adj s st := by
  cases n with
  | zero =>
    simp only [dijkstraStates, Option.some.injEq] at h
    exact Or.inl h.symm
  | succ n =>
    right
    unfold dijkstraStates at h
    rw [init_pop] at h
    exact states_keep_inv hE n _ st (init_visit_inv g hE hs) h

/-- When an unvisited vertex is popped in a state at the head of the loop, the state in
which its edges are about to be relaxed satisfies the invariant of the relaxation. -/
theorem reached_pop_mid (g : Graph) {s : Int} (hE : ValidEdges g.adj)
    (hs : ValidVertex g.getSize s) {n : Nat} {st : State}
    (hreach : dijkstraStates n (initState g s) = some st) {e : QueueElement}
    {rest : List QueueElement} (hpop : popFresh st.vertices st.pq = some (e, rest)) :
    Mid g.adj s e.2.1 [] (markVisited st.vertices e.2.1) (setI st.previous e.2.1 e.2.2)
      (st.distances, rest) := by
  rcases reached_cases g hE hs hreach with rfl | ⟨cur, done, hmid, hall⟩
  · rw [init_pop] at hpop
    simp only [Option.some.injEq, Prod.mk.injEq] at hpop
    obtain ⟨rfl, rfl⟩ := hpop
    exact init_mid g hs
  · obtain ⟨k, c, p⟩ := e
    exact pop_mid hE hmid hall hpop

theorem relax_keeps_visited (V : List Vertex) (cur : Int)
    (acc : List Int × List QueueElement) (e : Edge) {u : Int}
    (hu : isVisited V u = true) : getI (relaxEdge V cur acc e).1 u = getI acc.1 u := by
  rcases relaxEdge_cases V cur acc e with ⟨heq, _⟩ | ⟨hv, _, heq⟩
  · rw [heq]
  · rw [heq]
    exact getI_setI_other _ (toNat_ne_of_visited hu hv)

theorem fold_keeps_visited (V : List Vertex) (cur : Int) {u : Int}
    (hu : isVisited V u = true) :
    ∀ (es : List Edge) (acc : List Int × List QueueElement),
      getI (es.foldl (relaxEdge V cur) acc).1 u = getI acc.1 u
  | [], _ => rfl
  | e :: es, acc => by
    rw [List.foldl_cons, fold_keeps_visited V cur hu es, relax_keeps_visited V cur acc e hu]

theorem visit_keeps_visited (st : State) (e : QueueElement) (rest : List QueueElement)
    {u : Int} (hu : isVisited (visit st e rest).vertices u = true) :
    getI (visit st e rest).distances u = getI st.distances u := by
  simp only [visit] at hu ⊢
  exact fold_keeps_visited _ _ hu _ _

/-- The iterations of the loop never change the distance of a visited vertex. -/
theorem loop_keeps_visited : ∀ (k : Nat) (st : State) (u : Int),
    isVisited st.vertices u = true →
    getI (dijkstraLoop k st).distances u = getI st.distances u
  | 0, _, _, _ => rfl
  | k + 1, st, u, hu => by
    unfold dijkstraLoop
    cases hpop : popFresh st.vertices st.pq with
    | none => rfl
    | some pr =>
      obtain ⟨e, rest⟩ := pr
      have hu' : isVisited (visit st e rest).vertices u = true := by
        simp only [visit]
        exact isVisited_mark_mono _ hu
      simp only
      rw [loop_keeps_visited k _ u hu', visit_keeps_visited st e rest hu']

/-! ### Path costs and the total edge weight -/

theorem rowWeight_nonneg {E : List (List Edge)} (hW : NonNegWeights E) (i : Nat) :
    0 ≤ rowWeight (E.getD i []) := by
  unfold rowWeight
  apply List.sum_nonneg
  intro x hx
  rw [List.mem_map] at hx
  obtain ⟨e, he, rfl⟩ := hx
  by_cases hi : i < E.length
  · rw [List.getD_eq_getElem _ _ hi] at he
    exact hW _ (List.getElem_mem hi) e he
  · rw [List.getD_eq_default _ _ (by omega)] at he
    simp at he

theorem edge_le_rowWeight {E : List (List Edge)} (hW : NonNegWeights E) {u v w : Int}
    (h : HasEdge E u v w) : w ≤ rowWeight (E.getD u.toNat []) := by
  obtain ⟨_, es, h1, h2⟩ := h
  have hes : E.getD u.toNat [] = es := by
    rw [List.getD_eq_getElem?_getD, h1]
    rfl
  rw [hes]
  unfold rowWeight
  apply List.single_le_sum
  · intro x hx
    rw [List.mem_map] at hx
    obtain ⟨e, he, rfl⟩ := hx
    exact hW es (List.getElem?_mem h1) e he
  · exact List.mem_map.2 ⟨_, h2, rfl⟩

/-- The cost of a path is at most the weight of the rows of the vertices it leaves. -/
theorem dpath_le_rows {E : List (List Edge)} {s : Int} (hW : NonNegWeights E)
    {l : List Int} {c : Int} (h : DPath E s l c) :
    c ≤ (l.tail.map (fun u => rowWeight (E.getD u.toNat []))).sum := by
  induction h with
  | single => simp
  | cons _ he ih =>
    have := edge_le_rowWeight hW he
    simp only [List.tail_cons, List.map_cons, List.sum_cons] at ih ⊢
    omega

theorem range_rows (E : List (List Edge)) :
    (List.range E.length).map (fun i => rowWeight (E.getD i [])) = E.map rowWeight := by
  apply List.ext_getElem
  · simp
  · intro i h1 h2
    simp only [List.length_map, List.length_range] at h1
    simp [List.getElem?_eq_getElem h1]

/-- The rows of vertices that are pairwise different weigh at most the total weight. -/
theorem rows_le_total {E : List (List Edge)} (hW : NonNegWeights E) {l : List Int}
    (hnd : l.Nodup) (hv : ∀ v ∈ l, ValidVertex E.length v) :
    (l.map (fun u => rowWeight (E.getD u.toNat []))).sum ≤ totalWeight E := by
  have h1 : (l.map Int.toNat).Nodup := by
    apply List.Nodup.map_on _ hnd
    intro x hx y hy hxy
    have := (hv x hx).1
    have := (hv y hy).1
    omega
  have h2 : l.map Int.toNat ⊆ List.range E.length := by
    intro a ha
    rw [List.mem_map] at ha
    obtain ⟨b, hb, rfl⟩ := ha
    rw [List.mem_range]
    exact valid_toNat_lt (hv b hb)
  obtain ⟨l', hperm, hsub⟩ := List.subperm_of_subset h1 h2
  have h3 : (l.map (fun u => rowWeight (E.getD u.toNat []))).sum
      = ((l.map Int.toNat).map (fun i => rowWeight (E.getD i []))).sum := by
    rw [List.map_map]
    rfl
  have h4 : ((l.map Int.toNat).map (fun i => rowWeight (E.getD i []))).sum
      = (l'.map (fun i => rowWeight (E.getD i []))).sum :=
    ((hperm.map _).sum_eq).symm
  have h5 : (l'.map (fun i => rowWeight (E.getD i []))).sum
      ≤ ((List.range E.length).map (fun i => rowWeight (E.getD i []))).sum := by
    apply List.Sublist.sum_le_sum (hsub.map _)
    intro a ha
    rw [List.mem_map] at ha
    obtain ⟨i, _, rfl⟩ := ha
    exact rowWeight_nonneg hW i
  rw [h3, h4]
  rw [range_rows] at h5
  exact h5

/-- The cost of a path without repetition plus the weight of any edge that leaves its last
vertex is at most the total edge weight. -/
theorem path_edge_le_total {E : List (List Edge)} {s : Int} (hE : ValidEdges E)
    (hW : NonNegWeights E) (hs : ValidVertex E.length s) {v : Int} {vs : List Int} {c : Int}
    (hp : DPath E s (v :: vs) c) (hnd : (v :: vs).Nodup) {e : Edge}
    (he : e ∈ E.getD v.toNat []) : c + e.weight ≤ totalWeight E := by
  have h1 := dpath_le_rows hW hp
  have h2 := rows_le_total hW hnd (dpath_valid hE hs hp)
  have h3 : e.weight ≤ rowWeight (E.getD v.toNat []) := by
    unfold rowWeight
    apply List.single_le_sum
    · intro x hx
      rw [List.mem_map] at hx
      obtain ⟨e', he', rfl⟩ := hx
      have hv := valid_toNat_lt (dpath_valid hE hs hp v (List.mem_cons_self _ _))
      rw [List.getD_eq_getElem _ _ hv] at he'
      exact hW _ (List.getElem_mem hv) e' he'
    · exact List.mem_map.2 ⟨_, he, rfl⟩
  simp only [List.tail_cons, List.map_cons, List.sum_cons] at h1 h2
  omega

theorem bounded_of_total {E : List (List Edge)} {s : Int} (hE : ValidEdges E)
    (hW : NonNegWeights E) (hs : ValidVertex E.length s) (hT : totalWeight E < INT_MAX) :
    BoundedPaths E s := by
  intro vs c hp hnd
  have h1 := dpath_le_rows hW hp
  have hsub : vs.tail.Nodup := hnd.sublist (List.tail_sublist vs)
  have h2 := rows_le_total hW hsub
    (fun v hv => dpath_valid hE hs hp v (List.mem_of_mem_tail hv))
  omega

/-! ### Specified properties of the states of `Graph::dijkstra` -/

theorem exampleState_reached :
    dijkstraStates 1 (initState exampleGraph 0) = some exampleState :=
  AStar.eq_some_getD (by decide) _

theorem overflowState_reached :
    dijkstraStates 2 (initState overflowGraph 0) = some overflowState :=
  AStar.eq_some_getD (by decide) _

/-- C14, counterexample: `overflowGraph` has valid edge destinations and non-negative
weights and 0 is a valid source; in the third iteration of `dijkstra(0)` vertex 2 is popped
unvisited and finalized while its `distances` entry is -2147483648, which is not the cost
of any path (the sum 2^30 + 2^30 does not fit an `int`). -/
theorem dijkstra_finalized_not_exact :
    ValidEdges overflowGraph.adj ∧ NonNegWeights overflowGraph.adj ∧
    ValidVertex overflowGraph.getSize 0 ∧
    dijkstraStates 2 (initState overflowGraph 0) = some overflowState ∧
    popFresh overflowState.vertices overflowState.pq = some ((-2147483648, (2, 1)), []) ∧
    getI overflowState.distances 2 = -2147483648 ∧
    (overflowGraph.dijkstra 0).1.distances = [0, 1073741824, -2147483648] ∧
    isVisited (overflowGraph.dijkstra 0).2.vertices 2 = true ∧
    ¬ IsMinCost overflowGraph.adj 0 2 (-2147483648) := by
  refine ⟨by decide, by decide, by decide, overflowState_reached, by decide, by decide,
    by decide, by decide, ?_⟩
  rintro ⟨⟨vs, hp⟩, _⟩
  have h := dpath_nonneg (show NonNegWeights overflowGraph.adj by decide) hp
  omega

/-- C14, amended: in `Graph::dijkstra` on a graph with valid edge destinations,
non-negative weights and every path cost below `INT_MAX`, at the moment a vertex is
finalized (popped unvisited and marked visited) its `distances` entry is the minimum cost
of a path from the source, relaxing its edges leaves that entry as it is, and no later
iteration of the loop changes the `distances` entry of a finalized vertex. -/
theorem dijkstra_finalized_exact (g : Graph) (source : Int) (hE : ValidEdges g.adj)
    (hW : NonNegWeights g.adj) (hB : BoundedPaths g.adj source)
    (hs : ValidVertex g.getSize source) (n : Nat) (st : State)
    (hreach : dijkstraStates n (initState g source) = some st) (e : QueueElement)
    (rest : List QueueElement) (hpop : popFresh st.vertices st.pq = some (e, rest)) :
    IsMinCost g.adj source e.2.1 (getI st.distances e.2.1) ∧
    getI (visit st e rest).distances e.2.1 = getI st.distances e.2.1 ∧
    (∀ (k : Nat) (u : Int), isVisited (visit st e rest).vertices u = true →
      getI (dijkstraLoop k (visit st e rest)).distances u
        = getI (visit st e rest).distances u) := by
  have hmid := reached_pop_mid g hE hs hreach hpop
  have F := hmid.full ⟨hW, hB⟩
  have hvis : isVisited (visit st e rest).vertices e.2.1 = true := by
    simp only [visit]
    exact hmid.cur_visited
  refine ⟨⟨?_, F.optimal _ hmid.cur_valid hmid.cur_visited⟩,
    visit_keeps_visited st e rest hvis, fun k u hu => loop_keeps_visited k _ u hu⟩
  obtain ⟨vs, h1, _⟩ := F.path_cost _ hmid.cur_valid
    (F.visited_finite _ hmid.cur_valid hmid.cur_visited)
  exact ⟨vs, h1⟩

/-- C14, amended, at the documented graph: the second iteration finalizes vertex 1. -/
theorem dijkstra_finalized_exact_witness :
    IsMinCost exampleGraph.adj 0 1 (getI exampleState.distances 1) ∧
    getI (visit exampleState (1, (1, 0)) [(5, (2, 0))]).distances 1
      = getI exampleState.distances 1 ∧
    (∀ (k : Nat) (u : Int),
      isVisited (visit exampleState (1, (1, 0)) [(5, (2, 0))]).vertices u = true →
      getI (dijkstraLoop k (visit exampleState (1, (1, 0)) [(5, (2, 0))])).distances u
        = getI (visit exampleState (1, (1, 0)) [(5, (2, 0))]).distances u) :=
  dijkstra_finalized_exact exampleGraph 0 (by decide) (by decide) exampleGraph_bounded
    (by decide) 1 exampleState exampleState_reached (1, (1, 0)) [(5, (2, 0))] (by decide)

/-- C16, counterexample: on `overflowGraph` (valid edge destinations, non-negative weights,
valid source 0) `dijkstra(0)` finalizes vertex 2 with predecessor 1, `distances[1]` =
2^30 and `distances[2]` = -2147483648, and no edge from 1 to 2 has a weight `w` with
`distances[2] = distances[1] + w`. -/
theorem dijkstra_predecessor_not_exact :
    ValidEdges overflowGraph.adj ∧ NonNegWeights overflowGraph.adj ∧
    ValidVertex overflowGraph.getSize 0 ∧
    (overflowGraph.dijkstra 0).1 =
      { distances := [0, 1073741824, -2147483648], previousVertices := [0, 0, 1] } ∧
    isVisited (overflowGraph.dijkstra 0).2.vertices 2 = true ∧
    ¬ ∃ w, HasEdge overflowGraph.adj 1 2 w ∧ (-2147483648 : Int) = 1073741824 + w := by
  refine ⟨by decide, by decide, by decide, by decide, by decide, ?_⟩
  rintro ⟨w, ⟨_, es, h1, h2⟩, h3⟩
  have hes : es = [{ destination := 2, weight := 1073741824 }] := by
    have : overflowGraph.adj[(1 : Int).toNat]? = some [{ destination := 2, weight := 1073741824 }] := by
      decide
    rw [this] at h1
    injection h1 with h1
    exact h1.symm
  rw [hes, List.mem_singleton] at h2
  injection h2 with _ hw
  omega

/-- C16, amended: for a graph with valid edge destinations, non-negative weights and every
path cost below `INT_MAX`, a valid source and a finalized vertex `v` other than the source,
the recorded predecessor `p = previousVertices[v]` achieved the minimum of `v`: the graph
has an edge from `p` to `v` of some weight `w` with `distances[v] = distances[p] + w`. -/
theorem dijkstra_predecessor_edge (g : Graph) (source : Int) (hE : ValidEdges g.adj)
    (hW : NonNegWeights g.adj) (hB : BoundedPaths g.adj source)
    (hs : ValidVertex g.getSize source) (v : Int) (hv : ValidVertex g.getSize v)
    (hvis : isVisited (g.dijkstra source).2.vertices v = true) (hne : v ≠ source) :
    ∃ p w dv dp, (g.dijkstra source).1.previousVertices[v.toNat]? = some p ∧
      HasEdge g.adj p v w ∧
      (g.dijkstra source).1.distances[v.toNat]? = some dv ∧
      (g.dijkstra source).1.distances[p.toNat]? = some dp ∧ dv = dp + w := by
  obtain ⟨cur, done, pq, hmid, _⟩ := dijkstra_post g hE hs
  have hvalid : ValidVertex g.adj.length v := by rw [adj_length]; exact hv
  have F := hmid.full ⟨hW, hB⟩
  obtain ⟨w, h1, h2⟩ := F.pred_ok v hvalid hvis hne
  obtain ⟨hpv, _⟩ := prev_visited hmid hvalid hvis hne
  exact ⟨_, w, _, _,
    getElem?_of_getI (by rw [hmid.prev_len]; exact valid_toNat_lt hvalid), h1,
    getElem?_of_getI (by rw [hmid.dist_len]; exact valid_toNat_lt hvalid),
    getElem?_of_getI (by rw [hmid.dist_len]; exact valid_toNat_lt hpv), h2⟩

/-- C16, amended, at the documented graph, source 0 and vertex 3. -/
theorem dijkstra_predecessor_edge_witness :
    ∃ p w dv dp, (exampleGraph.dijkstra 0).1.previousVertices[(3 : Int).toNat]? = some p ∧
      HasEdge exampleGraph.adj p 3 w ∧
      (exampleGraph.dijkstra 0).1.distances[(3 : Int).toNat]? = some dv ∧
      (exampleGraph.dijkstra 0).1.distances[p.toNat]? = some dp ∧ dv = dp + w :=
  dijkstra_predecessor_edge exampleGraph 0 (by decide) (by decide) exampleGraph_bounded
    (by decide) 3 (by decide) (by decide) (by decide)

/-- C19: for a graph with valid edge destinations and non-negative weights whose total edge
weight is below `INT_MAX`, and a valid source, every vertex that `dijkstra` pops and
finalizes has a `distances` entry different from `INT_MAX`, and every sum
`distances[currentVertex] + weight` formed while its edges are relaxed lies in
`[0, INT_MAX)`, so it does not overflow a 32-bit `int`. -/
theorem dijkstra_sums_in_range (g : Graph) (source : Int) (hE : ValidEdges g.adj)
    (hW : NonNegWeights g.adj) (hT : totalWeight g.adj < INT_MAX)
    (hs : ValidVertex g.getSize source) (n : Nat) (st : State)
    (hreach : dijkstraStates n (initState g source) = some st) (e : QueueElement)
    (rest : List QueueElement) (hpop : popFresh st.vertices st.pq = some (e, rest)) :
    getI st.distances e.2.1 ≠ INT_MAX ∧
    ∀ (pre : List Edge) (edge : Edge) (post : List Edge),
      edgesOf (markVisited st.vertices e.2.1) e.2.1 = pre ++ edge :: post →
      0 ≤ getI (pre.foldl (relaxEdge (markVisited st.vertices e.2.1) e.2.1)
          (st.distances, rest)).1 e.2.1 + edge.weight ∧
      getI (pre.foldl (relaxEdge (markVisited st.vertices e.2.1) e.2.1)
          (st.distances, rest)).1 e.2.1 + edge.weight < INT_MAX ∧
      wrapInt (getI (pre.foldl (relaxEdge (markVisited st.vertices e.2.1) e.2.1)
          (st.distances, rest)).1 e.2.1 + edge.weight)
        = getI (pre.foldl (relaxEdge (markVisited st.vertices e.2.1) e.2.1)
          (st.distances, rest)).1 e.2.1 + edge.weight := by
  have hs' : ValidVertex g.adj.length source := by rw [adj_length]; exact hs
  have hB := bounded_of_total hE hW hs' hT
  have hmid := reached_pop_mid g hE hs hreach hpop
  have F := hmid.full ⟨hW, hB⟩
  have hfin := F.visited_finite _ hmid.cur_valid hmid.cur_visited
  refine ⟨hfin, ?_⟩
  intro pre edge post hsplit
  rw [fold_keeps_visited _ _ hmid.cur_visited]
  have hmem : edge ∈ edgesOf (markVisited st.vertices e.2.1) e.2.1 := by
    rw [hsplit]; simp
  obtain ⟨vs, hp, hnd, _⟩ := F.path_cost _ hmid.cur_valid hfin
  have h0 := dpath_nonneg hW hp
  have hw := hasEdge_nonneg hW (cur_edge hmid hmem)
  have hmem' : edge ∈ g.adj.getD e.2.1.toNat [] := by
    rw [edgesOf_eq, hmid.adj_eq] at hmem
    rw [List.getD_eq_getElem?_getD]
    exact hmem
  have ht := path_edge_le_total hE hW hs' hp hnd hmem'
  simp only at h0 ht ⊢
  have hlt : getI st.distances e.2.1 + edge.weight < INT_MAX := by omega
  refine ⟨by omega, hlt, wrapInt_eq (by omega) ?_⟩
  unfold INT_MAX at hlt
  omega

/-- C19 at the documented graph (total edge weight 9): the second iteration pops vertex
1. -/
theorem dijkstra_sums_in_range_witness :
    getI exampleState.distances 1 ≠ INT_MAX ∧
    ∀ (pre : List Edge) (edge : Edge) (post : List Edge),
      edgesOf (markVisited exampleState.vertices 1) 1 = pre ++ edge :: post →
      0 ≤ getI (pre.foldl (relaxEdge (markVisited exampleState.vertices 1) 1)
          (exampleState.distances, [(5, (2, 0))])).1 1 + edge.weight ∧
      getI (pre.foldl (relaxEdge (markVisited exampleState.vertices 1) 1)
          (exampleState.distances, [(5, (2, 0))])).1 1 + edge.weight < INT_MAX ∧
      wrapInt (getI (pre.foldl (relaxEdge (markVisited exampleState.vertices 1) 1)
          (exampleState.distances, [(5, (2, 0))])).1 1 + edge.weight)
        = getI (pre.foldl (relaxEdge (markVisited exampleState.vertices 1) 1)
          (exampleState.distances, [(5, (2, 0))])).1 1 + edge.weight :=
  dijkstra_sums_in_range exampleGraph 0 (by decide) (by decide) (by decide) (by decide) 1
    exampleState exampleState_reached (1, (1, 0)) [(5, (2, 0))] (by decide)

end Dijkstra
